import Mathlib

/-!
# Verification of the encrypted secrets vault

A shallow embedding of the secrets subsystem of `mdc-lifecycle-generator`:

* `src/ui/stores/secrets-store.ts` (the vault orchestrator, auto-lock timer),
* `src/crypto/secrets-crypto.ts` (key derivation, authenticated encryption,
  export/import, password change),
* `src/crypto/storage.ts` (the IndexedDB key/value store).

Cryptographic primitives (libsodium: Argon2id, BLAKE2b keyed hash,
XSalsa20-Poly1305 secretbox) are external library code, modelled ideally and
symbolically: a master key is determined by its `(password, salt)` inputs
(Argon2id is deterministic), a DEK by its `(masterKey, appId)` inputs
(BLAKE2b keyed hash is deterministic and collision-free in the ideal model),
and a secretbox ciphertext authenticates: decryption succeeds exactly when
the key and nonce match the ones used at encryption, and a byte string that
is not a genuine encryption (e.g. a tampered ciphertext) never decrypts.
Randomness (`sodium.randombytes_buf`) is modelled by an explicit counter
threaded through the state: each draw returns the counter value and bumps it,
so distinct draws are distinct values.

Everything else — the store layout, the vault state machine, caching, the
auto-lock timer, import/export — is translated statement by statement from
the TypeScript source.
-/

namespace SecretsVault

/-- A random byte string (salt or nonce), identified symbolically by the
value of the RNG counter at the moment it was drawn. -/
abbrev Bytes := Nat

/-- `deriveMasterKey` (Argon2id, `crypto_pwhash`) is deterministic on
`(password, salt)`; in the ideal model the key is identified with that pair. -/
structure MasterKey where
  password : String
  salt : Bytes
deriving DecidableEq, Repr

/-- `deriveDEK` (BLAKE2b keyed hash, `crypto_generichash(32, appId, masterKey)`)
is deterministic on `(masterKey, appId)`; identified with that pair. -/
structure DEK where
  masterKey : MasterKey
  appId : String
deriving DecidableEq, Repr

/-- Secrets for a single app (`AppSecrets` in `secrets-crypto.ts`). -/
structure AppSecrets where
  client_secret : String
deriving DecidableEq, Repr

/-- `Partial<AppSecrets>` as used by `setAppSecrets`: each field optionally
present. -/
structure AppSecretsPatch where
  client_secret : Option String := none
deriving DecidableEq, Repr

/-- JS object spread `{ ...existing, ...newSecrets }`. -/
def AppSecrets.merge (existing : AppSecrets) (upd : AppSecretsPatch) : AppSecrets :=
  { client_secret := upd.client_secret.getD existing.client_secret }

/-- `createEmptyAppSecrets` from `secrets-crypto.ts`. -/
def createEmptyAppSecrets : AppSecrets :=
  { client_secret := "" }

/-- The field names of `AppSecrets` (`keyof AppSecrets`). -/
inductive AppSecretField
  | client_secret
deriving DecidableEq, Repr

/-- Field projection `appSecrets?.[key]`. -/
def AppSecrets.getField : AppSecrets → AppSecretField → String
  | s, .client_secret => s.client_secret

/-- Ideal-model ciphertext of `crypto_secretbox_easy`: either a genuine
secretbox of a plaintext under a `(dek, nonce)` pair, or arbitrary bytes that
are not a valid encryption under any key (which is what tampering with a
genuine ciphertext produces, since forging a Poly1305 tag is infeasible). -/
inductive Ciphertext
  | secretbox (dek : DEK) (nonce : Bytes) (plain : AppSecrets)
  | garbage (bytes : Bytes)
deriving DecidableEq, Repr

/-- `decryptSecrets` (`crypto_secretbox_open_easy`): succeeds exactly when the
ciphertext is a genuine secretbox under the supplied key and nonce; the thrown
authentication error of the source is `none` here. -/
def decryptSecrets (ciphertext : Ciphertext) (nonce : Bytes) (dek : DEK) :
    Option AppSecrets :=
  match ciphertext with
  | .secretbox d n p => if d = dek ∧ n = nonce then some p else none
  | .garbage _ => none

/-- `deriveMasterKey(password, salt)` — Argon2id, symbolically. -/
def deriveMasterKey (password : String) (salt : Bytes) : MasterKey :=
  { password := password, salt := salt }

/-- `deriveDEK(masterKey, appId)` — BLAKE2b keyed hash, symbolically. -/
def deriveDEK (masterKey : MasterKey) (appId : String) : DEK :=
  { masterKey := masterKey, appId := appId }

/-! ## The IndexedDB store (`storage.ts`)

One object store keyed by string: the key `"salt"` holds the raw salt bytes,
and the key `"app:" ++ appId` holds `{ data: ciphertext, nonce }` for each
app. The two key shapes never collide (`"salt"` does not start with `"app:"`
and the prefixing of app ids is injective), so keys are embedded as an
inductive type. IndexedDB enumerates keys in sorted order; the embedding
keeps insertion order — none of the verified properties depend on the
enumeration order of app ids. -/

/-- A store key: `"salt"` or `"app:" ++ appId`. -/
inductive DBKey
  | salt
  | app (appId : String)
deriving DecidableEq, Repr

/-- The string each `DBKey` stands for; injective, witnessing that the
inductive key type is a faithful image of the string keys of the source. -/
def DBKey.encode : DBKey → String
  | .salt => "salt"
  | .app appId => "app:" ++ appId

/-- The `data` field of a stored record: the salt record holds raw bytes, an
app record holds a ciphertext. -/
inductive EntryData
  | raw (bytes : Bytes)
  | cipher (c : Ciphertext)
deriving DecidableEq, Repr

/-- A stored record: `{ key, data, nonce? }` (the key is the association-list
key). -/
structure DBEntry where
  data : EntryData
  nonce : Option Bytes := none
deriving DecidableEq, Repr

/-- The object store: an association list of records, keys unique by
construction of `put`/`erase`. -/
abbrev Store := List (DBKey × DBEntry)

/-- `db.get(STORE_NAME, key)`. -/
def Store.get : Store → DBKey → Option DBEntry
  | [], _ => none
  | (k, v) :: rest, key => if k = key then some v else Store.get rest key

/-- `db.put(STORE_NAME, record)` — upsert by key path. -/
def Store.put : Store → DBKey → DBEntry → Store
  | [], k, v => [(k, v)]
  | (k', v') :: rest, k, v =>
    if k' = k then (k, v) :: rest else (k', v') :: Store.put rest k v

/-- `db.delete(STORE_NAME, key)`. -/
def Store.erase : Store → DBKey → Store
  | [], _ => []
  | (k', v') :: rest, k => if k' = k then rest else (k', v') :: Store.erase rest k

/-- `db.getAllKeys(STORE_NAME)`. -/
def Store.getAllKeys (db : Store) : List DBKey :=
  db.map Prod.fst

/-- `hasStoredSecrets` (`storage.ts`): checks for the presence of the SALT
record, not of app records. -/
def hasStoredSecrets (db : Store) : Bool :=
  (db.get .salt).isSome

/-- `getSalt`: returns the salt record's raw bytes, `null` when absent.
(The salt record's `data` is always raw bytes in every state the store
code can produce; a cipher under the salt key reads as absent.) -/
def getSalt (db : Store) : Option Bytes :=
  match db.get .salt with
  | some e =>
    match e.data with
    | .raw b => some b
    | .cipher _ => none
  | none => none

/-- `setSalt`. -/
def setSalt (salt : Bytes) (db : Store) : Store :=
  db.put .salt { data := .raw salt }

/-- `getAppEncrypted`: returns `{ ciphertext, nonce }` when the record exists
and has both fields (`entry?.data && entry?.nonce`), else `null`. -/
def getAppEncrypted (db : Store) (appId : String) :
    Option (Ciphertext × Bytes) :=
  match db.get (.app appId) with
  | some e =>
    match e.data, e.nonce with
    | .cipher c, some n => some (c, n)
    | _, _ => none
  | none => none

/-- `setAppEncrypted`. -/
def setAppEncrypted (appId : String) (ciphertext : Ciphertext) (nonce : Bytes)
    (db : Store) : Store :=
  db.put (.app appId) { data := .cipher ciphertext, nonce := some nonce }

/-- `deleteAppEncrypted`. -/
def deleteAppEncrypted (appId : String) (db : Store) : Store :=
  db.erase (.app appId)

/-- `getAllAppIds`: all keys with the `app:` shape, stripped to the app id
(`filter(startsWith("app:")).map(slice(4))`). -/
def getAllAppIds (db : Store) : List String :=
  db.getAllKeys.filterMap fun k =>
    match k with
    | .app appId => some appId
    | .salt => none

/-- `getAllAppsEncrypted` (for export): every app record with both fields. -/
def getAllAppsEncrypted (db : Store) : List (String × Ciphertext × Bytes) :=
  db.filterMap fun kv =>
    match kv with
    | (.app appId, e) =>
      match e.data, e.nonce with
      | .cipher c, some n => some (appId, c, n)
      | _, _ => none
    | (.salt, _) => none

/-- `clearAll`. -/
def clearAll : Store := []

/-! ## The crypto layer (`secrets-crypto.ts`)

Randomness is an explicit counter: `generateSalt` and the per-encryption
nonce draw return the counter value and bump it. Functions that the source
writes against IndexedDB take and return the `Store`; `sodium.memzero` on a
derived key is a no-op on values in the model (keys are immutable terms). -/

/-- `generateSalt` — `randombytes_buf(ARGON2_SALT_LENGTH)`. -/
def generateSalt (rng : Nat) : Bytes × Nat :=
  (rng, rng + 1)

/-- `getOrCreateSalt`. -/
def getOrCreateSalt (db : Store) (rng : Nat) : Bytes × Store × Nat :=
  match getSalt db with
  | some existingSalt => (existingSalt, db, rng)
  | none =>
    let (newSalt, rng') := generateSalt rng
    (newSalt, setSalt newSalt db, rng')

/-- `initializeSalt` from the source (renamed: `getOrCreateSalt`, result
discarded). -/
def initSalt (db : Store) (rng : Nat) : Store × Nat :=
  (getOrCreateSalt db rng).2

/-- `encryptSecrets`: fresh random nonce, then
`crypto_secretbox_easy(plaintext, nonce, dek)`. -/
def encryptSecrets (secrets : AppSecrets) (dek : DEK) (rng : Nat) :
    (Ciphertext × Bytes) × Nat :=
  let (nonce, rng') := (rng, rng + 1)
  ((Ciphertext.secretbox dek nonce secrets, nonce), rng')

/-- `encryptAndStoreAppSecrets`. -/
def encryptAndStoreAppSecrets (appId : String) (secrets : AppSecrets)
    (masterKey : MasterKey) (db : Store) (rng : Nat) : Store × Nat :=
  let dek := deriveDEK masterKey appId
  let ((ciphertext, nonce), rng') := encryptSecrets secrets dek rng
  (setAppEncrypted appId ciphertext nonce db, rng')

/-- `loadAndDecryptAppSecrets`: `null` when the record is absent, and — via
the enclosing `catch` — also `null` when decryption fails authentication. -/
def loadAndDecryptAppSecrets (appId : String) (masterKey : MasterKey)
    (db : Store) : Option AppSecrets :=
  match getAppEncrypted db appId with
  | none => none
  | some (ciphertext, nonce) =>
    decryptSecrets ciphertext nonce (deriveDEK masterKey appId)

/-- `verifyPassword`: true when no salt or no app records exist; otherwise
attempts to decrypt the FIRST stored app record under the candidate key. -/
def verifyPassword (password : String) (db : Store) : Bool :=
  match getSalt db with
  | none => true
  | some salt =>
    match getAllAppIds db with
    | [] => true
    | firstAppId :: _ =>
      match getAppEncrypted db firstAppId with
      | none => true
      | some (ciphertext, nonce) =>
        let masterKey := deriveMasterKey password salt
        let dek := deriveDEK masterKey firstAppId
        (decryptSecrets ciphertext nonce dek).isSome

/-- `getMasterKey`: derives from the stored salt; `null` when no salt. -/
def getMasterKey (password : String) (db : Store) : Option MasterKey :=
  match getSalt db with
  | none => none
  | some salt => some (deriveMasterKey password salt)

/-- `removeAppSecretsFromStorage`. -/
def removeAppSecretsFromStorage (appId : String) (db : Store) : Store :=
  deleteAppEncrypted appId db

/-- `clearStoredSecrets` (`clearAll` plus the no-op legacy-localStorage
cleanup). -/
def clearStoredSecrets (_db : Store) : Store :=
  clearAll

/-- `SecretsData`: `Record<appId, AppSecrets>`, in insertion order. -/
abbrev SecretsData := List (String × AppSecrets)

/-- `reencryptWithNewPassword`: brand-new salt, new master key, delete every
existing app record, re-encrypt and store the supplied plaintext bundles. -/
def reencryptWithNewPassword (secrets : SecretsData) (newPassword : String)
    (db : Store) (rng : Nat) : Store × Nat :=
  let (newSalt, rng₁) := generateSalt rng
  let db₁ := setSalt newSalt db
  let newMasterKey := deriveMasterKey newPassword newSalt
  let appIds := getAllAppIds db₁
  let db₂ := appIds.foldl (fun d appId => deleteAppEncrypted appId d) db₁
  secrets.foldl
    (fun (acc : Store × Nat) entry =>
      encryptAndStoreAppSecrets entry.1 entry.2 newMasterKey acc.1 acc.2)
    (db₂, rng₁)

/-- The v3 export format, with the base64 text fields already decoded:
`salt` is `none` for the JSON `null`/absent case, `apps` maps each app id to
its `(nonce, ciphertext)` pair. -/
structure EncryptedSecretsExport where
  version : Nat
  salt : Option Bytes
  apps : List (String × Bytes × Ciphertext)
deriving DecidableEq, Repr

/-- `exportEncryptedSecrets`. -/
def exportEncryptedSecrets (db : Store) : EncryptedSecretsExport :=
  { version := 3
    salt := getSalt db
    apps := (getAllAppsEncrypted db).map fun e => (e.1, e.2.2, e.2.1) }

/-- `importEncryptedSecrets`: reject a version other than 3, reject an absent
salt (both before touching the store); on acceptance clear everything and
write the imported salt and app records. -/
def importEncryptedSecretsDB (data : EncryptedSecretsExport) (db : Store) :
    Bool × Store :=
  if data.version ≠ 3 then (false, db)
  else
    match data.salt with
    | none => (false, db)
    | some salt =>
      let db₁ := clearAll
      let db₂ := setSalt salt db₁
      let db₃ := data.apps.foldl
        (fun d entry => setAppEncrypted entry.1 entry.2.2 entry.2.1 d) db₂
      (true, db₃)

/-! ## The vault (`secrets-store.ts`) -/

/-- `AUTO_LOCK_TIMEOUT_MS = 15 * 60 * 1000`. -/
def AUTO_LOCK_TIMEOUT_MS : Nat := 15 * 60 * 1000

/-- The private closure (`secretsVault`): password, master key, and the
on-demand plaintext cache (`SecretsData`, a string-keyed record). -/
structure VaultClosure where
  password : Option String
  masterKey : Option MasterKey
  secretsCache : SecretsData
deriving DecidableEq, Repr

/-- Record lookup `secretsCache[appId]`. -/
def cacheLookup : SecretsData → String → Option AppSecrets
  | [], _ => none
  | (a, s) :: rest, appId => if a = appId then some s else cacheLookup rest appId

/-- Record assignment `secretsCache[appId] = secrets` (upsert). -/
def cacheUpsert : SecretsData → String → AppSecrets → SecretsData
  | [], appId, secrets => [(appId, secrets)]
  | (a, s) :: rest, appId, secrets =>
    if a = appId then (appId, secrets) :: rest
    else (a, s) :: cacheUpsert rest appId secrets

/-- `delete secretsCache[appId]`. -/
def cacheRemove : SecretsData → String → SecretsData
  | [], _ => []
  | (a, s) :: rest, appId =>
    if a = appId then rest else (a, s) :: cacheRemove rest appId

/-- `secretsVault.clear()`: password and master key dropped (the key is
zeroed in the source), cache emptied. -/
def VaultClosure.clear (_v : VaultClosure) : VaultClosure :=
  { password := none, masterKey := none, secretsCache := [] }

/-- The public state metadata (`SecretsState`). -/
structure SecretsState where
  isLocked : Bool
  hasSecrets : Bool
  masterPasswordSet : Bool
  isInitialized : Bool
deriving DecidableEq, Repr

/-- `defaultState`. -/
def defaultState : SecretsState :=
  { isLocked := true, hasSecrets := false, masterPasswordSet := false,
    isInitialized := false }

/-- The whole system: the IndexedDB store, the RNG counter, the private
vault closure, the public state, the auto-lock timer (the absolute expiry
time in ms when armed), and the wall clock. -/
structure Sys where
  db : Store
  rng : Nat
  vault : VaultClosure
  state : SecretsState
  autoLockTimer : Option Nat
  now : Nat
deriving DecidableEq, Repr

/-- A fresh page with store contents `db` (the store is the only state that
survives reloads): closed vault closure, default state, no timer armed. -/
def freshSys (db : Store) (rng now : Nat) : Sys :=
  { db := db, rng := rng,
    vault := { password := none, masterKey := none, secretsCache := [] },
    state := defaultState, autoLockTimer := none, now := now }

/-- `startAutoLockTimer`: clear any existing timer, arm a single-shot
timeout of `AUTO_LOCK_TIMEOUT_MS` from now. -/
def startAutoLockTimer (s : Sys) : Sys :=
  { s with autoLockTimer := some (s.now + AUTO_LOCK_TIMEOUT_MS) }

/-- `stopAutoLockTimer`. -/
def stopAutoLockTimer (s : Sys) : Sys :=
  { s with autoLockTimer := none }

/-- `initializeSecretsStore` from the source (renamed): recompute
`hasSecrets`/`masterPasswordSet` from the store, mark initialized. -/
def initSecretsStore (s : Sys) : Sys :=
  let hasSecretsStored := hasStoredSecrets s.db
  { s with state := { s.state with
      hasSecrets := hasSecretsStored,
      masterPasswordSet := hasSecretsStored,
      isInitialized := true } }

/-- `lockSecrets`: stop the timer, clear the closure, set `isLocked`. -/
def lockSecrets (s : Sys) : Sys :=
  let s₁ := stopAutoLockTimer s
  { s₁ with
    vault := s₁.vault.clear,
    state := { s₁.state with isLocked := true } }

/-- `resetAutoLockTimer` (exported activity signal): rearm only while
unlocked. -/
def resetAutoLockTimer (s : Sys) : Sys :=
  if ¬ s.state.isLocked then startAutoLockTimer s else s

/-- The event loop advancing the wall clock by `dt`; when the armed
single-shot timeout expires in that window its callback runs: it invokes
`lockSecrets`. Returns whether the timer fired. -/
def advanceTime (dt : Nat) (s : Sys) : Bool × Sys :=
  let s₁ := { s with now := s.now + dt }
  match s₁.autoLockTimer with
  | some t => if t ≤ s₁.now then (true, lockSecrets s₁) else (false, s₁)
  | none => (false, s₁)

/-- `unlockSecrets`. -/
def unlockSecrets (password : String) (s : Sys) : Bool × Sys :=
  if ¬ s.state.hasSecrets then
    -- First-time setup: create the salt, derive the master key, unlock.
    let init := initSalt s.db s.rng
    let masterKey := getMasterKey password init.1
    let s₁ := { s with
      db := init.1, rng := init.2,
      vault := { s.vault with password := some password, masterKey := masterKey },
      state := { s.state with isLocked := false, masterPasswordSet := true } }
    (true, startAutoLockTimer s₁)
  else
    if ¬ verifyPassword password s.db then (false, s)
    else
      let masterKey := getMasterKey password s.db
      let s₁ := { s with
        vault := { s.vault with password := some password, masterKey := masterKey },
        state := { s.state with isLocked := false } }
      (true, startAutoLockTimer s₁)

/-- `getAppSecrets`: `undefined` when locked; cache first; on a miss decrypt
on demand and cache the result; `undefined` when the record is absent or
fails to decrypt. -/
def getAppSecrets (appId : String) (s : Sys) : Option AppSecrets × Sys :=
  if s.state.isLocked then (none, s)
  else
    match cacheLookup s.vault.secretsCache appId with
    | some cached => (some cached, s)
    | none =>
      match s.vault.masterKey with
      | none => (none, s)
      | some masterKey =>
        match loadAndDecryptAppSecrets appId masterKey s.db with
        | some decrypted =>
          (some decrypted,
           { s with vault := { s.vault with
               secretsCache := cacheUpsert s.vault.secretsCache appId decrypted } })
        | none => (none, s)

/-- `getAppSecret`: one field of `getAppSecrets`. -/
def getAppSecret (appId : String) (key : AppSecretField) (s : Sys) :
    Option String × Sys :=
  ((getAppSecrets appId s).1.map (fun a => a.getField key),
   (getAppSecrets appId s).2)

/-- The errors the vault throws; the source uses `new Error(msg)` with the
three locked messages. -/
inductive VaultError
  | lockedError (msg : String)
deriving DecidableEq, Repr

/-- `setAppSecrets`: throws when locked; read-modify-write through the
cache-or-decrypt path, merge, encrypt with a fresh nonce, persist, cache,
mark `hasSecrets`. -/
def setAppSecrets (appId : String) (newSecrets : AppSecretsPatch) (s : Sys) :
    Except VaultError Sys :=
  match s.vault.masterKey with
  | none => .error (.lockedError "Cannot save secrets while locked")
  | some masterKey =>
    let got := getAppSecrets appId s
    let s₁ := got.2
    let existingAppSecrets := got.1.getD createEmptyAppSecrets
    let updatedAppSecrets := existingAppSecrets.merge newSecrets
    let enc :=
      encryptAndStoreAppSecrets appId updatedAppSecrets masterKey s₁.db s₁.rng
    .ok { s₁ with
      db := enc.1, rng := enc.2,
      vault := { s₁.vault with
        secretsCache := cacheUpsert s₁.vault.secretsCache appId updatedAppSecrets },
      state := { s₁.state with hasSecrets := true } }

/-- `setAppSecret`: single-field update. -/
def setAppSecret (appId : String) (key : AppSecretField) (value : String)
    (s : Sys) : Except VaultError Sys :=
  match key with
  | .client_secret => setAppSecrets appId { client_secret := some value } s

/-- `removeAppSecrets`: throws when locked; delete the record, evict the
cache entry, recompute `hasSecrets` via `hasStoredSecrets`. -/
def removeAppSecrets (appId : String) (s : Sys) : Except VaultError Sys :=
  match s.vault.masterKey with
  | none => .error (.lockedError "Cannot remove secrets while locked")
  | some _ =>
    let db₁ := removeAppSecretsFromStorage appId s.db
    let stillHasSecrets := hasStoredSecrets db₁
    .ok { s with
      db := db₁,
      vault := { s.vault with
        secretsCache := cacheRemove s.vault.secretsCache appId },
      state := { s.state with hasSecrets := stillHasSecrets } }

/-- `isUnlocked`. -/
def isUnlocked (s : Sys) : Bool :=
  s.vault.masterKey.isSome

/-- The body of `changeMasterPassword`'s collection loop
(`for appId of appIds: secrets = await getAppSecrets(appId); if (secrets)
allSecrets[appId] = secrets`): one iteration, threading the accumulated
record and the state (`getAppSecrets` populates the cache as it goes). -/
def collectAppSecrets (acc : SecretsData × Sys) (appId : String) :
    SecretsData × Sys :=
  match getAppSecrets appId acc.2 with
  | (some secrets, st') => (acc.1 ++ [(appId, secrets)], st')
  | (none, st') => (acc.1, st')

/-- `changeMasterPassword`: throws when locked; decrypt every app found in
the STORE (through the cache-or-decrypt path, silently skipping failures),
re-encrypt everything under a brand-new salt and key, install the new key. -/
def changeMasterPassword (newPassword : String) (s : Sys) :
    Except VaultError Sys :=
  match s.vault.masterKey with
  | none => .error (.lockedError "Cannot change password while locked")
  | some _ =>
    let appIds := getAllAppIds s.db
    let folded := appIds.foldl collectAppSecrets (([] : SecretsData), s)
    let allSecrets := folded.1
    let s₁ := folded.2
    let re := reencryptWithNewPassword allSecrets newPassword s₁.db s₁.rng
    let newMasterKey := getMasterKey newPassword re.1
    .ok { s₁ with
      db := re.1, rng := re.2,
      vault := { s₁.vault with
        password := some newPassword, masterKey := newMasterKey } }

/-- `resetAllSecrets`: clear the store and the closure, state back to default
(still initialized). Note: the source does NOT stop the auto-lock timer here. -/
def resetAllSecrets (s : Sys) : Sys :=
  { s with
    db := clearStoredSecrets s.db,
    vault := s.vault.clear,
    state := { defaultState with isInitialized := true } }

/-- `importEncryptedSecrets` as invoked by the application: acts on the store
only. -/
def importEncryptedSecrets (data : EncryptedSecretsExport) (s : Sys) :
    Bool × Sys :=
  let (ok, db') := importEncryptedSecretsDB data s.db
  (ok, { s with db := db' })

/-- The state a caller observes after running an `Except`-returning vault
operation from state `s`: the new state on success, `s` itself when the
operation threw (all three throwing operations throw before any mutation). -/
def resultState (r : Except VaultError Sys) (s : Sys) : Sys :=
  match r with
  | .ok s' => s'
  | .error _ => s

/-! ## Basic lemmas about the store -/

theorem Store.get_nil (k : DBKey) : Store.get [] k = none := rfl

theorem Store.get_cons (k' : DBKey) (v' : DBEntry) (tl : Store) (k : DBKey) :
    Store.get ((k', v') :: tl) k =
      if k' = k then some v' else Store.get tl k := rfl

theorem Store.put_nil (k : DBKey) (v : DBEntry) :
    Store.put [] k v = [(k, v)] := rfl

theorem Store.put_cons (k' : DBKey) (v' : DBEntry) (tl : Store) (k : DBKey)
    (v : DBEntry) :
    Store.put ((k', v') :: tl) k v =
      if k' = k then (k, v) :: tl else (k', v') :: Store.put tl k v := rfl

theorem Store.erase_nil (k : DBKey) : Store.erase [] k = [] := rfl

theorem Store.erase_cons (k' : DBKey) (v' : DBEntry) (tl : Store) (k : DBKey) :
    Store.erase ((k', v') :: tl) k =
      if k' = k then tl else (k', v') :: Store.erase tl k := rfl

theorem Store.get_put_self (db : Store) (k : DBKey) (v : DBEntry) :
    (db.put k v).get k = some v := by
  induction db with
  | nil => simp [Store.put_nil, Store.get_cons]
  | cons hd tl ih =>
    obtain ⟨k', v'⟩ := hd
    by_cases h : k' = k <;> simp [Store.put_cons, Store.get_cons, h, ih]

theorem Store.get_put_ne (db : Store) (k k' : DBKey) (v : DBEntry)
    (h : k ≠ k') : (db.put k v).get k' = db.get k' := by
  have h1 : ¬ k = k' := h
  have h2 : ¬ k' = k := fun hh => h hh.symm
  induction db with
  | nil => simp [Store.put_nil, Store.get_cons, Store.get_nil, h1, h2]
  | cons hd tl ih =>
    obtain ⟨k₀, v₀⟩ := hd
    by_cases h₀ : k₀ = k
    · subst h₀
      simp [Store.put_cons, Store.get_cons, h1]
    · by_cases h₁ : k₀ = k' <;>
        simp [Store.put_cons, Store.get_cons, h₀, h₁, h2, ih]

theorem Store.mem_put (db : Store) (k k₀ : DBKey) (v v₀ : DBEntry)
    (h : (k, v) ∈ db.put k₀ v₀) : (k = k₀ ∧ v = v₀) ∨ (k, v) ∈ db := by
  induction db with
  | nil => simpa [Store.put_nil] using h
  | cons hd tl ih =>
    obtain ⟨k', v'⟩ := hd
    by_cases h' : k' = k₀
    · subst h'
      rw [Store.put_cons, if_pos rfl] at h
      rcases List.mem_cons.mp h with h | h
      · rw [Prod.mk.injEq] at h
        exact Or.inl h
      · exact Or.inr (List.mem_cons_of_mem _ h)
    · rw [Store.put_cons, if_neg h'] at h
      rcases List.mem_cons.mp h with h | h
      · exact Or.inr (List.mem_cons.mpr (Or.inl h))
      · rcases ih h with h | h
        · exact Or.inl h
        · exact Or.inr (List.mem_cons_of_mem _ h)

theorem Store.get_mem (db : Store) (k : DBKey) (v : DBEntry)
    (h : db.get k = some v) : (k, v) ∈ db := by
  induction db with
  | nil => simp [Store.get_nil] at h
  | cons hd tl ih =>
    obtain ⟨k', v'⟩ := hd
    by_cases h' : k' = k
    · subst h'
      rw [Store.get_cons, if_pos rfl, Option.some.injEq] at h
      subst h
      exact List.mem_cons_self ..
    · rw [Store.get_cons, if_neg h'] at h
      exact List.mem_cons_of_mem _ (ih h)

theorem Store.mem_get (db : Store) (k : DBKey) (v : DBEntry)
    (hnd : (db.map Prod.fst).Nodup) (h : (k, v) ∈ db) : db.get k = some v := by
  induction db with
  | nil => simp at h
  | cons hd tl ih =>
    obtain ⟨k', v'⟩ := hd
    simp only [List.map_cons, List.nodup_cons] at hnd
    rcases List.mem_cons.mp h with h | h
    · rw [Prod.mk.injEq] at h
      obtain ⟨rfl, rfl⟩ := h
      simp [Store.get_cons]
    · have hk : ¬ k' = k := by
        intro he
        exact hnd.1 (he ▸ (List.mem_map.mpr ⟨(k, v), h, rfl⟩))
      simp [Store.get_cons, hk, ih hnd.2 h]

/-- The keys after an upsert: unchanged when the key was present, the key
appended when it was not. -/
theorem Store.keys_put (db : Store) (k : DBKey) (v : DBEntry) :
    (db.put k v).map Prod.fst =
      if k ∈ db.map Prod.fst then db.map Prod.fst
      else db.map Prod.fst ++ [k] := by
  induction db with
  | nil => simp [Store.put_nil]
  | cons hd tl ih =>
    obtain ⟨k', v'⟩ := hd
    by_cases h' : k' = k
    · subst h'; simp [Store.put_cons]
    · have hne : ¬ k = k' := fun h => h' h.symm
      by_cases hmem : k ∈ tl.map Prod.fst <;>
        simp [Store.put_cons, h', hne, hmem, ih]

theorem Store.nodup_put (db : Store) (k : DBKey) (v : DBEntry)
    (hnd : (db.map Prod.fst).Nodup) :
    ((db.put k v).map Prod.fst).Nodup := by
  rw [Store.keys_put]
  by_cases hmem : k ∈ db.map Prod.fst
  · simpa [hmem] using hnd
  · simp only [hmem, if_false]
    exact List.Nodup.append hnd (List.nodup_singleton k)
      (by simpa [List.disjoint_singleton] using hmem)

theorem Store.get_erase_ne (db : Store) (k k' : DBKey) (h : k ≠ k') :
    (db.erase k).get k' = db.get k' := by
  induction db with
  | nil => simp [Store.erase_nil]
  | cons hd tl ih =>
    obtain ⟨k₀, v₀⟩ := hd
    by_cases h₀ : k₀ = k
    · subst h₀
      have h1 : ¬ k₀ = k' := h
      simp [Store.erase_cons, Store.get_cons, h1]
    · have h2 : ¬ k' = k := fun hh => h hh.symm
      by_cases h₁ : k₀ = k' <;>
        simp [Store.erase_cons, Store.get_cons, h₀, h₁, h2, ih]

theorem Store.keys_erase_sub (db : Store) (k : DBKey) :
    ∀ x, x ∈ (db.erase k).map Prod.fst → x ∈ db.map Prod.fst := by
  induction db with
  | nil => simp [Store.erase_nil]
  | cons hd tl ih =>
    obtain ⟨k₀, v₀⟩ := hd
    intro x hx
    by_cases h₀ : k₀ = k
    · subst h₀
      rw [Store.erase_cons, if_pos rfl] at hx
      exact List.mem_cons_of_mem _ hx
    · rw [Store.erase_cons, if_neg h₀] at hx
      simp only [List.map_cons, List.mem_cons] at hx ⊢
      exact hx.imp_right (ih x)

theorem Store.nodup_erase (db : Store) (k : DBKey)
    (hnd : (db.map Prod.fst).Nodup) :
    ((db.erase k).map Prod.fst).Nodup := by
  induction db with
  | nil => rw [Store.erase_nil]; exact hnd
  | cons hd tl ih =>
    obtain ⟨k₀, v₀⟩ := hd
    simp only [List.map_cons, List.nodup_cons] at hnd
    by_cases h₀ : k₀ = k
    · subst h₀; simpa [Store.erase_cons] using hnd.2
    · rw [Store.erase_cons, if_neg h₀]
      simp only [List.map_cons, List.nodup_cons]
      exact ⟨fun hm => hnd.1 (Store.keys_erase_sub tl k _ hm), ih hnd.2⟩

theorem Store.get_erase_self (db : Store) (k : DBKey)
    (hnd : (db.map Prod.fst).Nodup) : (db.erase k).get k = none := by
  induction db with
  | nil => simp [Store.erase_nil, Store.get_nil]
  | cons hd tl ih =>
    obtain ⟨k₀, v₀⟩ := hd
    simp only [List.map_cons, List.nodup_cons] at hnd
    by_cases h₀ : k₀ = k
    · subst h₀
      rw [Store.erase_cons, if_pos rfl]
      cases hget : Store.get tl k₀ with
      | none => rfl
      | some v =>
        exact absurd (List.mem_map.mpr ⟨(k₀, v), Store.get_mem tl k₀ v hget, rfl⟩)
          hnd.1
    · simp [Store.erase_cons, Store.get_cons, h₀, ih hnd.2]

/-- A key answers `get` exactly when it is among the keys. -/
theorem Store.get_isSome_of_mem_keys (db : Store) (k : DBKey)
    (h : k ∈ db.map Prod.fst) : (db.get k).isSome := by
  induction db with
  | nil => simp at h
  | cons hd tl ih =>
    obtain ⟨k₀, v₀⟩ := hd
    by_cases h₀ : k₀ = k
    · simp [Store.get_cons, h₀]
    · have hk : k ∈ tl.map Prod.fst := by
        rw [List.map_cons, List.mem_cons] at h
        rcases h with h | h
        · exact absurd h.symm h₀
        · exact h
      simp [Store.get_cons, h₀, ih hk]

theorem Store.mem_keys_of_get (db : Store) (k : DBKey) (v : DBEntry)
    (h : db.get k = some v) : k ∈ db.map Prod.fst :=
  List.mem_map.mpr ⟨(k, v), Store.get_mem db k v h, rfl⟩

/-! ## Lemmas about the derived store operations -/

theorem getSalt_setApp (db : Store) (appId : String) (c : Ciphertext)
    (n : Bytes) : getSalt (setAppEncrypted appId c n db) = getSalt db := by
  unfold getSalt setAppEncrypted
  rw [Store.get_put_ne]
  intro h
  exact DBKey.noConfusion h

theorem getSalt_setSalt (db : Store) (b : Bytes) :
    getSalt (setSalt b db) = some b := by
  unfold getSalt setSalt
  rw [Store.get_put_self]

theorem getSalt_deleteApp (db : Store) (appId : String) :
    getSalt (deleteAppEncrypted appId db) = getSalt db := by
  unfold getSalt deleteAppEncrypted
  rw [Store.get_erase_ne]
  intro h
  exact DBKey.noConfusion h

theorem getAppEncrypted_setApp_self (db : Store) (appId : String)
    (c : Ciphertext) (n : Bytes) :
    getAppEncrypted (setAppEncrypted appId c n db) appId = some (c, n) := by
  unfold getAppEncrypted setAppEncrypted
  rw [Store.get_put_self]

theorem getAppEncrypted_setApp_ne (db : Store) (appId appId' : String)
    (c : Ciphertext) (n : Bytes) (h : appId ≠ appId') :
    getAppEncrypted (setAppEncrypted appId c n db) appId' =
      getAppEncrypted db appId' := by
  unfold getAppEncrypted setAppEncrypted
  rw [Store.get_put_ne]
  intro he
  exact h (DBKey.app.injEq .. ▸ he)

theorem getAppEncrypted_setSalt (db : Store) (b : Bytes) (appId : String) :
    getAppEncrypted (setSalt b db) appId = getAppEncrypted db appId := by
  unfold getAppEncrypted setSalt
  rw [Store.get_put_ne]
  intro h
  exact DBKey.noConfusion h

/-- Membership in `getAllAppIds` is existence of a record under the app key. -/
theorem mem_getAllAppIds (db : Store) (a : String) :
    a ∈ getAllAppIds db ↔ DBKey.app a ∈ db.map Prod.fst := by
  unfold getAllAppIds Store.getAllKeys
  rw [List.mem_filterMap]
  constructor
  · rintro ⟨k, hk, he⟩
    cases k with
    | salt => simp at he
    | app b =>
      simp only [Option.some.injEq] at he
      exact he ▸ hk
  · intro hk
    exact ⟨DBKey.app a, hk, rfl⟩

theorem getAllAppIds_nodup (db : Store) (hnd : (db.map Prod.fst).Nodup) :
    (getAllAppIds db).Nodup := by
  unfold getAllAppIds Store.getAllKeys
  refine List.Nodup.filterMap ?_ hnd
  intro k k' a hk hk'
  cases k with
  | salt => simp at hk
  | app b =>
    cases k' with
    | salt => simp at hk'
    | app b' =>
      rw [Option.mem_def, Option.some.injEq] at hk hk'
      rw [hk, hk']

theorem getAllAppIds_setSalt (db : Store) (b : Bytes) :
    getAllAppIds (setSalt b db) = getAllAppIds db := by
  unfold getAllAppIds Store.getAllKeys setSalt
  rw [Store.keys_put]
  by_cases h : DBKey.salt ∈ db.map Prod.fst
  · rw [if_pos h]
  · rw [if_neg h, List.filterMap_append]
    simp

/-! ## Lemmas about the cache -/

theorem cacheLookup_nil (a : String) : cacheLookup [] a = none := rfl

theorem cacheLookup_cons (a' : String) (s' : AppSecrets) (tl : SecretsData)
    (a : String) :
    cacheLookup ((a', s') :: tl) a =
      if a' = a then some s' else cacheLookup tl a := rfl

theorem cacheLookup_upsert (cache : SecretsData) (a a' : String)
    (v : AppSecrets) :
    cacheLookup (cacheUpsert cache a v) a' =
      if a = a' then some v else cacheLookup cache a' := by
  induction cache with
  | nil =>
    by_cases h : a = a' <;>
      simp [cacheUpsert, cacheLookup_cons, cacheLookup_nil, h]
  | cons hd tl ih =>
    obtain ⟨a₀, s₀⟩ := hd
    by_cases h₀ : a₀ = a
    · subst h₀
      by_cases h : a₀ = a' <;>
        simp [cacheUpsert, cacheLookup_cons, h]
    · by_cases h₁ : a₀ = a'
      · subst h₁
        have : ¬ a = a₀ := fun hh => h₀ hh.symm
        simp [cacheUpsert, cacheLookup_cons, h₀, this]
      · simp [cacheUpsert, cacheLookup_cons, h₀, h₁, ih]

theorem cacheLookup_remove_self (cache : SecretsData) (a : String)
    (hnd : (cache.map Prod.fst).Nodup) :
    cacheLookup (cacheRemove cache a) a = none := by
  induction cache with
  | nil => rfl
  | cons hd tl ih =>
    obtain ⟨a₀, s₀⟩ := hd
    simp only [List.map_cons, List.nodup_cons] at hnd
    by_cases h₀ : a₀ = a
    · subst h₀
      rw [cacheRemove, if_pos rfl]
      cases hget : cacheLookup tl a₀ with
      | none => rfl
      | some v =>
        have : a₀ ∈ tl.map Prod.fst := by
          clear ih hnd
          induction tl with
          | nil => simp [cacheLookup_nil] at hget
          | cons hd' tl' ih' =>
            obtain ⟨a₁, s₁⟩ := hd'
            by_cases h₁ : a₁ = a₀
            · simp [h₁]
            · rw [cacheLookup_cons, if_neg h₁] at hget
              exact List.mem_cons_of_mem _ (ih' hget)
        exact absurd this hnd.1
    · simp [cacheRemove, cacheLookup_cons, h₀, ih hnd.2]

/-! ## Well-formed stores

A store is well formed relative to a master key when its keys are unique,
its salt record holds the key's salt, and every app record is a genuine
secretbox of some plaintext under that app's DEK with the record's own
nonce — exactly the states the vault itself writes. -/

theorem decryptSecrets_secretbox (d d' : DEK) (n n' : Bytes)
    (p : AppSecrets) :
    decryptSecrets (.secretbox d n p) n' d' =
      if d = d' ∧ n = n' then some p else none := rfl

theorem decryptSecrets_garbage (b : Bytes) (n : Bytes) (d : DEK) :
    decryptSecrets (.garbage b) n d = none := rfl

theorem decryptSecrets_self (d : DEK) (n : Bytes) (p : AppSecrets) :
    decryptSecrets (.secretbox d n p) n d = some p := by
  rw [decryptSecrets_secretbox, if_pos ⟨rfl, rfl⟩]

/-- Every app record in the store is a genuine secretbox of some plaintext
under that app's DEK with the record's own nonce. -/
def AppsWF (db : Store) (mk : MasterKey) : Prop :=
  ∀ a e, (DBKey.app a, e) ∈ db →
    ∃ n p, e.data = .cipher (.secretbox (deriveDEK mk a) n p) ∧
      e.nonce = some n

structure WFStore (db : Store) (mk : MasterKey) : Prop where
  nodup : (db.map Prod.fst).Nodup
  salt : getSalt db = some mk.salt
  apps : AppsWF db mk

theorem WFStore.getApp {db : Store} {mk : MasterKey} (hwf : WFStore db mk)
    {a : String} {c : Ciphertext} {n : Bytes}
    (h : getAppEncrypted db a = some (c, n)) :
    ∃ p, c = .secretbox (deriveDEK mk a) n p := by
  unfold getAppEncrypted at h
  cases hget : Store.get db (.app a) with
  | none => rw [hget] at h; exact absurd h (by simp)
  | some e =>
    rw [hget] at h
    obtain ⟨data, nonce⟩ := e
    cases data with
    | raw b => exact absurd h (by simp)
    | cipher c' =>
      cases nonce with
      | none => exact absurd h (by simp)
      | some n' =>
        simp only [Option.some.injEq, Prod.mk.injEq] at h
        obtain ⟨rfl, rfl⟩ := h
        obtain ⟨n₀, p₀, hdata, hnonce⟩ :=
          hwf.apps a _ (Store.get_mem db _ _ hget)
        simp only [EntryData.cipher.injEq] at hdata
        simp only [Option.some.injEq] at hnonce
        exact ⟨p₀, by rw [hdata, hnonce]⟩

theorem WFStore.appIds_decrypt {db : Store} {mk : MasterKey}
    (hwf : WFStore db mk) {a : String} (h : a ∈ getAllAppIds db) :
    ∃ n p, getAppEncrypted db a =
      some (.secretbox (deriveDEK mk a) n p, n) := by
  have hk := (mem_getAllAppIds db a).mp h
  obtain ⟨⟨k, e⟩, hmem, hfst⟩ := List.mem_map.mp hk
  obtain rfl : k = DBKey.app a := hfst
  obtain ⟨n, p, hdata, hnonce⟩ := hwf.apps a e hmem
  refine ⟨n, p, ?_⟩
  unfold getAppEncrypted
  rw [Store.mem_get db _ _ hwf.nodup hmem]
  obtain ⟨data, nonce⟩ := e
  simp only at hdata hnonce
  rw [hdata, hnonce]

theorem getMasterKey_of_salt {db : Store} {b : Bytes} (pw : String)
    (h : getSalt db = some b) :
    getMasterKey pw db = some (deriveMasterKey pw b) := by
  unfold getMasterKey
  rw [h]

/-- With at least one app record, the stored password verifies. -/
theorem verifyPassword_true {db : Store} {mk : MasterKey}
    (hwf : WFStore db mk) : verifyPassword mk.password db = true := by
  unfold verifyPassword
  rw [hwf.salt]
  cases hids : getAllAppIds db with
  | nil => rfl
  | cons a rest =>
    have ha : a ∈ getAllAppIds db := hids ▸ List.mem_cons_self ..
    obtain ⟨n, p, henc⟩ := hwf.appIds_decrypt ha
    have hmk : deriveMasterKey mk.password mk.salt = mk := rfl
    simp only [henc, hmk, decryptSecrets_self, Option.isSome_some]

/-- With at least one app record, any other password fails verification. -/
theorem verifyPassword_false {db : Store} {mk : MasterKey} {pw : String}
    (hwf : WFStore db mk) (hne : getAllAppIds db ≠ [])
    (hpw : pw ≠ mk.password) : verifyPassword pw db = false := by
  unfold verifyPassword
  rw [hwf.salt]
  cases hids : getAllAppIds db with
  | nil => exact absurd hids hne
  | cons a rest =>
    have ha : a ∈ getAllAppIds db := hids ▸ List.mem_cons_self ..
    obtain ⟨n, p, henc⟩ := hwf.appIds_decrypt ha
    have hdek : ¬ deriveDEK mk a = deriveDEK (deriveMasterKey pw mk.salt) a := by
      intro h
      have hm : mk = deriveMasterKey pw mk.salt := congrArg DEK.masterKey h
      exact hpw (congrArg MasterKey.password hm).symm
    simp only [henc]
    rw [decryptSecrets_secretbox, if_neg (fun hc => hdek (And.left hc))]
    rfl

/-- Writing a conforming app record preserves well-formedness. -/
theorem WFStore.setApp {db : Store} {mk : MasterKey} (hwf : WFStore db mk)
    (a : String) (n : Bytes) (p : AppSecrets) :
    WFStore (setAppEncrypted a (.secretbox (deriveDEK mk a) n p) n db) mk := by
  refine ⟨Store.nodup_put db _ _ hwf.nodup, ?_, ?_⟩
  · rw [getSalt_setApp, hwf.salt]
  · intro a' e hmem
    rcases Store.mem_put db _ _ _ _ hmem with ⟨hk, hv⟩ | hmem'
    · obtain rfl : a' = a := DBKey.app.injEq .. ▸ hk
      exact ⟨n, p, by rw [hv], by rw [hv]⟩
    · exact hwf.apps a' e hmem'

/-! ## Fold lemmas for the import path -/

theorem importFold_get_salt (l : List (String × Bytes × Ciphertext))
    (db : Store) :
    Store.get (l.foldl
        (fun d entry => setAppEncrypted entry.1 entry.2.2 entry.2.1 d) db)
      DBKey.salt = Store.get db DBKey.salt := by
  induction l generalizing db with
  | nil => rfl
  | cons hd tl ih =>
    rw [List.foldl_cons, ih]
    exact Store.get_put_ne db _ _ _ (fun h => DBKey.noConfusion h)

theorem importFold_get_app_notmem (l : List (String × Bytes × Ciphertext))
    (db : Store) (id : String) (h : id ∉ l.map Prod.fst) :
    Store.get (l.foldl
        (fun d entry => setAppEncrypted entry.1 entry.2.2 entry.2.1 d) db)
      (DBKey.app id) = Store.get db (DBKey.app id) := by
  induction l generalizing db with
  | nil => rfl
  | cons hd tl ih =>
    rw [List.map_cons, List.mem_cons] at h
    push_neg at h
    rw [List.foldl_cons, ih _ h.2]
    refine Store.get_put_ne db _ _ _ (fun he => ?_)
    exact h.1 ((DBKey.app.injEq .. ▸ he) ▸ rfl)

theorem importFold_get_app_mem (l : List (String × Bytes × Ciphertext))
    (db : Store) (id : String) (n : Bytes) (c : Ciphertext)
    (hnd : (l.map Prod.fst).Nodup) (hmem : (id, n, c) ∈ l) :
    Store.get (l.foldl
        (fun d entry => setAppEncrypted entry.1 entry.2.2 entry.2.1 d) db)
      (DBKey.app id) = some { data := .cipher c, nonce := some n } := by
  induction l generalizing db with
  | nil => cases hmem
  | cons hd tl ih =>
    rw [List.map_cons, List.nodup_cons] at hnd
    rcases List.mem_cons.mp hmem with h | h
    · subst h
      rw [List.foldl_cons, importFold_get_app_notmem tl _ id hnd.1]
      exact Store.get_put_self db _ _
    · exact List.foldl_cons .. ▸ ih _ hnd.2 h

/-! ## Claim theorems -/

/-- **C5.** For every locked vault (no master key held), each of `setSecret`,
`removeSecret` and `changeMasterPassword` throws its LockedError and, since
the throw precedes every store access, the persistent store the caller
observes afterwards is completely unchanged. -/
theorem c5_locked_mutations_rejected (s : Sys) (appId pw : String)
    (patch : AppSecretsPatch) (hlocked : s.vault.masterKey = none) :
    setAppSecrets appId patch s =
      .error (.lockedError "Cannot save secrets while locked") ∧
    removeAppSecrets appId s =
      .error (.lockedError "Cannot remove secrets while locked") ∧
    changeMasterPassword pw s =
      .error (.lockedError "Cannot change password while locked") ∧
    (resultState (setAppSecrets appId patch s) s).db = s.db ∧
    (resultState (removeAppSecrets appId s) s).db = s.db ∧
    (resultState (changeMasterPassword pw s) s).db = s.db := by
  unfold setAppSecrets removeAppSecrets changeMasterPassword
  rw [hlocked]
  exact ⟨rfl, rfl, rfl, rfl, rfl, rfl⟩

/-- Witness for C5 at a concrete locked vault. -/
theorem c5_locked_mutations_rejected_witness :
    setAppSecrets "app1" { client_secret := some "x" } (freshSys [] 0 0) =
      .error (.lockedError "Cannot save secrets while locked") ∧
    removeAppSecrets "app1" (freshSys [] 0 0) =
      .error (.lockedError "Cannot remove secrets while locked") ∧
    changeMasterPassword "pw" (freshSys [] 0 0) =
      .error (.lockedError "Cannot change password while locked") := by
  have h := c5_locked_mutations_rejected (freshSys [] 0 0) "app1" "pw"
    { client_secret := some "x" } rfl
  exact ⟨h.1, h.2.1, h.2.2.1⟩

/-- **C8.** Import rejects a version other than 3 and an absent salt, in both
cases returning `false` to the caller with the stored records untouched; on
acceptance it wipes every persisted record and replaces them with exactly the
imported salt and app records, never merging with pre-existing ones. -/
theorem c8_import_validation (data : EncryptedSecretsExport) (s : Sys) :
    (data.version ≠ 3 → importEncryptedSecrets data s = (false, s)) ∧
    (data.salt = none → importEncryptedSecrets data s = (false, s)) ∧
    (∀ b, data.version = 3 → data.salt = some b →
      (importEncryptedSecrets data s).1 = true ∧
      getSalt (importEncryptedSecrets data s).2.db = some b ∧
      (∀ id, id ∉ data.apps.map Prod.fst →
        Store.get (importEncryptedSecrets data s).2.db (DBKey.app id) = none) ∧
      ((data.apps.map Prod.fst).Nodup →
        ∀ id n c, (id, n, c) ∈ data.apps →
          getAppEncrypted (importEncryptedSecrets data s).2.db id =
            some (c, n))) := by
  refine ⟨?_, ?_, ?_⟩
  · intro hv
    unfold importEncryptedSecrets importEncryptedSecretsDB
    rw [if_pos hv]
  · intro hsalt
    unfold importEncryptedSecrets importEncryptedSecretsDB
    by_cases hv : data.version ≠ 3
    · rw [if_pos hv]
    · rw [if_neg hv, hsalt]
  · intro b hv hsalt
    unfold importEncryptedSecrets importEncryptedSecretsDB
    rw [if_neg (by rw [hv]; exact fun h => h rfl), hsalt]
    refine ⟨rfl, ?_, ?_, ?_⟩
    · show getSalt (data.apps.foldl _ (setSalt b clearAll)) = some b
      unfold getSalt
      rw [importFold_get_salt]
      rw [show Store.get (setSalt b clearAll) DBKey.salt
            = some { data := .raw b } from rfl]
    · intro id hid
      show Store.get (data.apps.foldl _ (setSalt b clearAll)) _ = none
      rw [importFold_get_app_notmem _ _ _ hid]
      rfl
    · intro hnd id n c hmem
      show getAppEncrypted (data.apps.foldl _ (setSalt b clearAll)) id = _
      unfold getAppEncrypted
      rw [importFold_get_app_mem _ _ _ _ _ hnd hmem]

/-- Witness for C8: a rejected version, a rejected missing salt, and an
accepted import observed at concrete inputs. -/
theorem c8_import_validation_witness :
    importEncryptedSecrets { version := 2, salt := some 7, apps := [] }
      (freshSys [] 0 0) = (false, freshSys [] 0 0) ∧
    importEncryptedSecrets { version := 3, salt := none, apps := [] }
      (freshSys [] 0 0) = (false, freshSys [] 0 0) ∧
    getSalt (importEncryptedSecrets
      { version := 3, salt := some 7,
        apps := [("app1", 5, Ciphertext.garbage 9)] }
      (freshSys [] 0 0)).2.db = some 7 ∧
    getAppEncrypted (importEncryptedSecrets
      { version := 3, salt := some 7,
        apps := [("app1", 5, Ciphertext.garbage 9)] }
      (freshSys [] 0 0)).2.db "app1" = some (Ciphertext.garbage 9, 5) := by
  refine ⟨?_, ?_, ?_, ?_⟩
  · exact (c8_import_validation
      { version := 2, salt := some 7, apps := [] } (freshSys [] 0 0)).1
      (by decide)
  · exact (c8_import_validation
      { version := 3, salt := none, apps := [] } (freshSys [] 0 0)).2.1 rfl
  · exact ((c8_import_validation
      { version := 3, salt := some 7,
        apps := [("app1", 5, Ciphertext.garbage 9)] }
      (freshSys [] 0 0)).2.2 7 rfl rfl).2.1
  · exact ((c8_import_validation
      { version := 3, salt := some 7,
        apps := [("app1", 5, Ciphertext.garbage 9)] }
      (freshSys [] 0 0)).2.2 7 rfl rfl).2.2.2 (by simp)
      "app1" 5 (Ciphertext.garbage 9) (by simp)

/-- A concrete unlocked vault: salt drawn as 0, one app record for `"app1"`
encrypted under the master key of password `"pw0"`, coherent cache empty. -/
def oneAppSys : Sys :=
  { db := [(DBKey.salt, { data := .raw 0 }),
           (DBKey.app "app1",
             { data := .cipher (.secretbox
                 (deriveDEK { password := "pw0", salt := 0 } "app1") 1
                 { client_secret := "s" }),
               nonce := some 1 })],
    rng := 2,
    vault := { password := some "pw0",
               masterKey := some { password := "pw0", salt := 0 },
               secretsCache := [] },
    state := { isLocked := false, hasSecrets := true,
               masterPasswordSet := true, isInitialized := true },
    autoLockTimer := some (15 * 60 * 1000), now := 0 }

/-- The same store and flags with the vault locked (as after `lockSecrets`). -/
def oneAppLockedSys : Sys :=
  lockSecrets oneAppSys

/-- **C6 (counterexample).** Removing the last entity record does NOT make
`hasSecrets` false: `hasStoredSecrets` tests the salt record, which survives,
so after removing `"app1"` zero app records remain yet the flag is still
true — refuting the claim that it is false exactly when zero entity records
remain. -/
theorem c6_counterexample :
    (removeAppSecrets "app1" oneAppSys).isOk = true ∧
    getAllAppIds (resultState (removeAppSecrets "app1" oneAppSys)
      oneAppSys).db = [] ∧
    (resultState (removeAppSecrets "app1" oneAppSys)
      oneAppSys).state.hasSecrets = true := by
  decide

/-- **C6 (amended).** After `removeSecret(entityId)` on an unlocked vault the
entity's persisted record is deleted and its cache entry evicted, and
`hasSecrets` is recomputed from the store as the presence of the SALT
record — so it stays true as long as the salt exists, even with zero entity
records remaining. -/
theorem c6_remove_secret_amended (s : Sys) (appId : String) (mk : MasterKey)
    (hkey : s.vault.masterKey = some mk)
    (hnd : (s.db.map Prod.fst).Nodup)
    (hcnd : (s.vault.secretsCache.map Prod.fst).Nodup) :
    (removeAppSecrets appId s).isOk = true ∧
    Store.get (resultState (removeAppSecrets appId s) s).db
      (DBKey.app appId) = none ∧
    cacheLookup (resultState (removeAppSecrets appId s) s).vault.secretsCache
      appId = none ∧
    (resultState (removeAppSecrets appId s) s).state.hasSecrets =
      (Store.get (resultState (removeAppSecrets appId s) s).db
        DBKey.salt).isSome ∧
    getSalt (resultState (removeAppSecrets appId s) s).db = getSalt s.db := by
  have heq : removeAppSecrets appId s = .ok
      { s with
        db := removeAppSecretsFromStorage appId s.db,
        vault := { s.vault with
          secretsCache := cacheRemove s.vault.secretsCache appId },
        state := { s.state with
          hasSecrets := hasStoredSecrets
            (removeAppSecretsFromStorage appId s.db) } } := by
    unfold removeAppSecrets
    rw [hkey]
  rw [heq]
  refine ⟨rfl, ?_, ?_, rfl, ?_⟩
  · exact Store.get_erase_self s.db _ hnd
  · exact cacheLookup_remove_self _ _ hcnd
  · exact getSalt_deleteApp s.db appId

/-- Witness for C6's amended theorem at the concrete one-app vault. -/
theorem c6_remove_secret_amended_witness :
    (removeAppSecrets "app1" oneAppSys).isOk = true ∧
    Store.get (resultState (removeAppSecrets "app1" oneAppSys)
      oneAppSys).db (DBKey.app "app1") = none ∧
    getSalt (resultState (removeAppSecrets "app1" oneAppSys)
      oneAppSys).db = getSalt oneAppSys.db := by
  have h := c6_remove_secret_amended oneAppSys "app1"
    { password := "pw0", salt := 0 } rfl (by decide) (by decide)
  exact ⟨h.1, h.2.1, h.2.2.2.2⟩

/-- A concrete unlocked vault whose stored ciphertext for `"app1"` has been
tampered with (the genuine secretbox replaced by other bytes). -/
def tamperedSys : Sys :=
  { oneAppSys with
    db := [(DBKey.salt, { data := .raw 0 }),
           (DBKey.app "app1",
             { data := .cipher (.garbage 99), nonce := some 1 })] }

/-- **C1 (counterexample).** On the tampered store, `getSecret("app1")`
returns `undefined` — exactly the same `undefined` as for an entity with no
stored record — rather than failing with a distinguishable
AuthenticationFailure: `loadAndDecryptAppSecrets` swallows the
authentication error (`catch { return null }`) and `getAppSecrets` maps it
to `undefined`. -/
theorem c1_counterexample :
    (getAppSecret "app1" .client_secret tamperedSys).1 = none ∧
    (getAppSecret "nosuch" .client_secret tamperedSys).1 = none := by
  decide

/-- **C1 (amended).** For every unlocked vault and entity whose stored
ciphertext or nonce is corrupted (fails authentication under the entity's
DEK), `getSecret` returns `undefined` rather than corrupted plaintext, the
vault state is unchanged (nothing is cached) — and the result is
indistinguishable from the `undefined` returned for an entity with no
stored record. -/
theorem c1_tamper_returns_undefined (s : Sys) (appId missingId : String)
    (field : AppSecretField) (mk : MasterKey) (c : Ciphertext) (n : Bytes)
    (hunlocked : s.state.isLocked = false)
    (hkey : s.vault.masterKey = some mk)
    (hmiss : cacheLookup s.vault.secretsCache appId = none)
    (henc : getAppEncrypted s.db appId = some (c, n))
    (hfail : decryptSecrets c n (deriveDEK mk appId) = none)
    (hmiss2 : cacheLookup s.vault.secretsCache missingId = none)
    (habsent : getAppEncrypted s.db missingId = none) :
    getAppSecrets appId s = (none, s) ∧
    getAppSecret appId field s = (none, s) ∧
    getAppSecrets missingId s = (none, s) := by
  have h1 : loadAndDecryptAppSecrets appId mk s.db = none := by
    unfold loadAndDecryptAppSecrets
    rw [henc]
    exact hfail
  have h2 : loadAndDecryptAppSecrets missingId mk s.db = none := by
    unfold loadAndDecryptAppSecrets
    rw [habsent]
  have g1 : getAppSecrets appId s = (none, s) := by
    unfold getAppSecrets
    simp only [hunlocked, hmiss, hkey, h1, Bool.false_eq_true, if_false]
  have g2 : getAppSecrets missingId s = (none, s) := by
    unfold getAppSecrets
    simp only [hunlocked, hmiss2, hkey, h2, Bool.false_eq_true, if_false]
  refine ⟨g1, ?_, g2⟩
  unfold getAppSecret
  rw [g1]
  rfl

/-- Witness for C1's amended theorem at the concrete tampered vault. -/
theorem c1_tamper_returns_undefined_witness :
    getAppSecrets "app1" tamperedSys = (none, tamperedSys) ∧
    getAppSecrets "nosuch" tamperedSys = (none, tamperedSys) := by
  have h := c1_tamper_returns_undefined tamperedSys "app1" "nosuch"
    .client_secret { password := "pw0", salt := 0 } (.garbage 99) 1
    rfl rfl rfl (by decide) rfl rfl (by decide)
  exact ⟨h.1, h.2.2⟩

/-- The vault right after a first-time unlock on a fresh page (timer armed,
deadline `0 + 15min`). -/
def unlockedFreshSys : Sys :=
  (unlockSecrets "pw" (initSecretsStore (freshSys [] 0 0))).2

/-- **C9 (counterexample).** `resetAllSecrets` locks the vault (state back to
default) but does NOT disarm the auto-lock timer, so after unlock followed by
resetAll the vault is locked with the timer still armed, and when the
timeout elapses the timer fires — against an already-locked vault — refuting
"the timer never fires against an already-locked vault". -/
theorem c9_counterexample :
    (resetAllSecrets unlockedFreshSys).state.isLocked = true ∧
    (resetAllSecrets unlockedFreshSys).autoLockTimer = some (15 * 60 * 1000) ∧
    (advanceTime (15 * 60 * 1000) (resetAllSecrets unlockedFreshSys)).1
      = true := by
  decide

/-- **C9 (amended).** The auto-lock timer is single-shot with the fixed
15-minute timeout, armed on every successful unlock and rearmed on every
activity signal while unlocked; on expiry it invokes `lock()`, which (from
any cause) disarms it, and it only ever fires while armed. However
`resetAll` does not disarm it, so after a resetAll on an unlocked vault the
timer can still fire once against the already-locked vault (the fired lock
is then a no-op relock). -/
theorem c9_autolock_amended (s : Sys) (pw : String) (dt t : Nat) :
    AUTO_LOCK_TIMEOUT_MS = 15 * 60 * 1000 ∧
    ((unlockSecrets pw s).1 = true →
      (unlockSecrets pw s).2.autoLockTimer =
        some (s.now + AUTO_LOCK_TIMEOUT_MS)) ∧
    (s.state.isLocked = false →
      (resetAutoLockTimer s).autoLockTimer =
        some (s.now + AUTO_LOCK_TIMEOUT_MS)) ∧
    (s.autoLockTimer = some t → t ≤ s.now + dt →
      advanceTime dt s = (true, lockSecrets { s with now := s.now + dt })) ∧
    (lockSecrets s).autoLockTimer = none ∧
    (lockSecrets s).state.isLocked = true ∧
    ((advanceTime dt s).1 = true → s.autoLockTimer ≠ none) ∧
    (resetAllSecrets s).autoLockTimer = s.autoLockTimer := by
  refine ⟨rfl, ?_, ?_, ?_, rfl, rfl, ?_, rfl⟩
  · intro h
    by_cases hs : s.state.hasSecrets = true
    · by_cases hv : verifyPassword pw s.db = true
      · show (unlockSecrets pw s).2.autoLockTimer = _
        unfold unlockSecrets
        rw [if_neg (fun hc => hc hs), if_neg (fun hc => hc hv)]
        rfl
      · have heq : unlockSecrets pw s = (false, s) := by
          unfold unlockSecrets
          rw [if_neg (fun hc => hc hs), if_pos hv]
        rw [heq] at h
        exact absurd h (by simp)
    · show (unlockSecrets pw s).2.autoLockTimer = _
      unfold unlockSecrets
      rw [if_pos hs]
      rcases hinit : initSalt s.db s.rng with ⟨db₁, rng₁⟩
      rfl
  · intro hu
    unfold resetAutoLockTimer
    rw [if_pos (by rw [hu]; exact fun h => Bool.noConfusion h)]
    rfl
  · intro harm hexp
    unfold advanceTime
    rw [show ({ s with now := s.now + dt } : Sys).autoLockTimer
          = s.autoLockTimer from rfl, harm]
    simp only [hexp, if_pos]
  · intro hfire
    intro hnone
    unfold advanceTime at hfire
    rw [show ({ s with now := s.now + dt } : Sys).autoLockTimer
          = s.autoLockTimer from rfl, hnone] at hfire
    exact Bool.noConfusion hfire

/-- Witness for C9's amended theorem: the armed-unlock, activity-rearm,
expiry and fire-only-when-armed parts at concrete states. -/
theorem c9_autolock_amended_witness :
    (unlockSecrets "pw" (initSecretsStore (freshSys [] 0 0))).2.autoLockTimer
      = some (0 + AUTO_LOCK_TIMEOUT_MS) ∧
    (resetAutoLockTimer oneAppSys).autoLockTimer =
      some (0 + AUTO_LOCK_TIMEOUT_MS) ∧
    advanceTime (15 * 60 * 1000) oneAppSys =
      (true, lockSecrets { oneAppSys with now := 0 + 15 * 60 * 1000 }) := by
  refine ⟨?_, ?_, ?_⟩
  · exact (c9_autolock_amended (initSecretsStore (freshSys [] 0 0)) "pw" 0
      0).2.1 (by decide)
  · exact (c9_autolock_amended oneAppSys "pw" 0 0).2.2.1 rfl
  · exact (c9_autolock_amended oneAppSys "pw" (15 * 60 * 1000)
      (15 * 60 * 1000)).2.2.2.1 rfl (by decide)

/-- A locked vault over the same one-app store, as a fresh page would see it
(no key, no password, empty cache). -/
def lockedOneAppSys : Sys :=
  initSecretsStore (freshSys oneAppSys.db 2 0)

/-- **C2.** For every vault with at least one stored entity record (all
records well formed under the master key of password `mk.password`) and
every candidate password different from it, `unlock` returns false, changes
nothing, and so the vault remains Locked with no master key or password
retained. -/
theorem c2_wrong_password_rejected (s : Sys) (pw : String) (mk : MasterKey)
    (hwf : WFStore s.db mk)
    (hne : getAllAppIds s.db ≠ [])
    (hpw : pw ≠ mk.password)
    (hhs : s.state.hasSecrets = true)
    (hlocked : s.state.isLocked = true)
    (hkey : s.vault.masterKey = none)
    (hpwd : s.vault.password = none) :
    (unlockSecrets pw s).1 = false ∧
    (unlockSecrets pw s).2 = s ∧
    (unlockSecrets pw s).2.state.isLocked = true ∧
    (unlockSecrets pw s).2.vault.masterKey = none ∧
    (unlockSecrets pw s).2.vault.password = none := by
  have hvf : verifyPassword pw s.db = false := verifyPassword_false hwf hne hpw
  have heq : unlockSecrets pw s = (false, s) := by
    unfold unlockSecrets
    rw [if_neg (by rw [hhs]; exact fun h => h rfl),
      if_pos (by rw [hvf]; exact fun h => Bool.noConfusion h)]
  exact ⟨by rw [heq], by rw [heq], by rw [heq]; exact hlocked,
    by rw [heq]; exact hkey, by rw [heq]; exact hpwd⟩

/-- Witness for C2 at the concrete locked one-app vault and the wrong
password `"bad"`. -/
theorem c2_wrong_password_rejected_witness :
    (unlockSecrets "bad" lockedOneAppSys).1 = false ∧
    (unlockSecrets "bad" lockedOneAppSys).2.state.isLocked = true ∧
    (unlockSecrets "bad" lockedOneAppSys).2.vault.masterKey = none := by
  have hwf : WFStore lockedOneAppSys.db { password := "pw0", salt := 0 } := by
    refine ⟨by decide, rfl, ?_⟩
    intro a e hmem
    simp only [lockedOneAppSys, initSecretsStore, freshSys, oneAppSys,
      List.mem_cons, List.not_mem_nil, or_false, Prod.mk.injEq] at hmem
    rcases hmem with ⟨hk, _⟩ | ⟨hk, hv⟩
    · exact absurd hk (by simp)
    · obtain rfl : a = "app1" := by
        have := DBKey.app.injEq .. ▸ hk
        simpa using hk
      exact ⟨1, { client_secret := "s" }, by rw [hv], by rw [hv]⟩
  have h := c2_wrong_password_rejected lockedOneAppSys "bad"
    { password := "pw0", salt := 0 } hwf (by decide) (by decide)
    (by decide) rfl rfl rfl
  exact ⟨h.1, h.2.2.1, h.2.2.2.1⟩

/-- `getAppSecrets` only ever touches the plaintext cache: store, RNG,
public state, key material, timer and clock are untouched. -/
theorem getAppSecrets_frame (a : String) (s : Sys) :
    (getAppSecrets a s).2.db = s.db ∧
    (getAppSecrets a s).2.rng = s.rng ∧
    (getAppSecrets a s).2.state = s.state ∧
    (getAppSecrets a s).2.vault.masterKey = s.vault.masterKey ∧
    (getAppSecrets a s).2.vault.password = s.vault.password ∧
    (getAppSecrets a s).2.autoLockTimer = s.autoLockTimer ∧
    (getAppSecrets a s).2.now = s.now := by
  unfold getAppSecrets
  split
  · exact ⟨rfl, rfl, rfl, rfl, rfl, rfl, rfl⟩
  · split
    · exact ⟨rfl, rfl, rfl, rfl, rfl, rfl, rfl⟩
    · split
      · exact ⟨rfl, rfl, rfl, rfl, rfl, rfl, rfl⟩
      · split
        · exact ⟨rfl, rfl, rfl, rfl, rfl, rfl, rfl⟩
        · exact ⟨rfl, rfl, rfl, rfl, rfl, rfl, rfl⟩

/-- **C3.** Round-trip: on an unlocked vault (master key derived from the
vault password `P` and the stored salt, store well formed), `setSecret(id,
B)` then `lock()` then `unlock(P)` (which returns true) then
`getSecret(id, client_secret)` returns exactly the value of `B`. -/
theorem c3_roundtrip (s : Sys) (id v P : String) (b : Bytes)
    (hkey : s.vault.masterKey = some { password := P, salt := b })
    (hwf : WFStore s.db { password := P, salt := b }) :
    ∃ s₁, setAppSecrets id { client_secret := some v } s = .ok s₁ ∧
      s₁.state.hasSecrets = true ∧
      (unlockSecrets P (lockSecrets s₁)).1 = true ∧
      (getAppSecret id .client_secret
        (unlockSecrets P (lockSecrets s₁)).2).1 = some v := by
  rcases hga : getAppSecrets id s with ⟨existing, t⟩
  have hframe := getAppSecrets_frame id s
  rw [hga] at hframe
  obtain ⟨hdb, hrng, _, _, _, _, _⟩ := hframe
  refine ⟨{ t with
      db := setAppEncrypted id
        (.secretbox (deriveDEK { password := P, salt := b } id) t.rng
          { client_secret := v }) t.rng t.db,
      rng := t.rng + 1,
      vault := { t.vault with
        secretsCache := cacheUpsert t.vault.secretsCache id
          { client_secret := v } },
      state := { t.state with hasSecrets := true } }, ?_, rfl, ?_, ?_⟩
  · unfold setAppSecrets
    rw [hkey, hga]
    rfl
  · -- unlock(P) succeeds: the store re-read is well formed under ⟨P, b⟩
    have hwf₁ : WFStore (setAppEncrypted id
        (.secretbox (deriveDEK { password := P, salt := b } id) t.rng
          { client_secret := v }) t.rng t.db) { password := P, salt := b } := by
      rw [hdb]
      exact hwf.setApp id t.rng { client_secret := v }
    show (unlockSecrets P _).1 = true
    unfold unlockSecrets
    rw [if_neg (fun hc => hc rfl),
      if_neg (fun hc => hc (verifyPassword_true hwf₁))]
  · have hwf₁ : WFStore (setAppEncrypted id
        (.secretbox (deriveDEK { password := P, salt := b } id) t.rng
          { client_secret := v }) t.rng t.db) { password := P, salt := b } := by
      rw [hdb]
      exact hwf.setApp id t.rng { client_secret := v }
    have hload : loadAndDecryptAppSecrets id { password := P, salt := b }
        (setAppEncrypted id
          (.secretbox (deriveDEK { password := P, salt := b } id) t.rng
            { client_secret := v }) t.rng t.db) =
        some { client_secret := v } := by
      unfold loadAndDecryptAppSecrets
      rw [getAppEncrypted_setApp_self]
      exact decryptSecrets_self _ _ _
    unfold unlockSecrets
    rw [if_neg (fun hc => hc rfl),
      if_neg (fun hc => hc (verifyPassword_true hwf₁))]
    unfold getAppSecret getAppSecrets
    have hmk : getMasterKey P (setAppEncrypted id
        (.secretbox (deriveDEK { password := P, salt := b } id) t.rng
          { client_secret := v }) t.rng t.db) =
        some { password := P, salt := b } :=
      getMasterKey_of_salt P hwf₁.salt
    simp only [startAutoLockTimer, lockSecrets, stopAutoLockTimer,
      VaultClosure.clear, cacheLookup_nil, hmk, hload, Bool.false_eq_true,
      if_false]
    rfl

/-- Witness for C3 at the concrete one-app vault: store `"new"` for
`"app2"`, lock, unlock with `"pw0"`, read it back. -/
theorem c3_roundtrip_witness :
    ∃ s₁, setAppSecrets "app2" { client_secret := some "new" } oneAppSys
        = .ok s₁ ∧
      s₁.state.hasSecrets = true ∧
      (unlockSecrets "pw0" (lockSecrets s₁)).1 = true ∧
      (getAppSecret "app2" .client_secret
        (unlockSecrets "pw0" (lockSecrets s₁)).2).1 = some "new" := by
  refine c3_roundtrip oneAppSys "app2" "new" "pw0" 0 rfl ?_
  refine ⟨by decide, rfl, ?_⟩
  intro a e hmem
  simp only [oneAppSys, List.mem_cons, List.not_mem_nil, or_false,
    Prod.mk.injEq] at hmem
  rcases hmem with ⟨hk, _⟩ | ⟨hk, hv⟩
  · exact absurd hk (by simp)
  · obtain rfl : a = "app1" := by simpa using hk
    exact ⟨1, { client_secret := "s" }, by rw [hv], by rw [hv]⟩

/-! ## Cache coherence and the password-change collection loop -/

/-- Cache coherence relative to a store and master key: every cached
plaintext is exactly what the store decrypts to for that app (this is the
invariant the vault maintains, since entries are cached only on a
successful decrypt or together with the write of the same plaintext). -/
def CacheWF (cache : SecretsData) (db : Store) (mk : MasterKey) : Prop :=
  ∀ a p, cacheLookup cache a = some p →
    loadAndDecryptAppSecrets a mk db = some p

/-- On an unlocked vault, `getAppSecrets` returns the cached value on a hit
and the store's decryption on a miss, and either leaves the cache alone or
upserts the decrypted value. -/
theorem getAppSecrets_res (a : String) (s : Sys) (mk : MasterKey)
    (hl : s.state.isLocked = false) (hkey : s.vault.masterKey = some mk) :
    ((getAppSecrets a s).1 =
      match cacheLookup s.vault.secretsCache a with
      | some c => some c
      | none => loadAndDecryptAppSecrets a mk s.db) ∧
    ((getAppSecrets a s).2.vault.secretsCache = s.vault.secretsCache ∨
     ∃ d, loadAndDecryptAppSecrets a mk s.db = some d ∧
       (getAppSecrets a s).2.vault.secretsCache =
         cacheUpsert s.vault.secretsCache a d) := by
  unfold getAppSecrets
  split
  · rename_i hcond
    rw [hl] at hcond
    exact absurd hcond (by simp)
  · split
    · rename_i c hc
      exact ⟨rfl, Or.inl rfl⟩
    · rename_i hc
      split
      · rename_i hmk
        rw [hkey] at hmk
        cases hmk
      · rename_i mk' hmk
        rw [hkey] at hmk
        injection hmk with hmk
        subst hmk
        split
        · rename_i d hload
          exact ⟨hload.symm, Or.inr ⟨d, hload, rfl⟩⟩
        · rename_i hload
          exact ⟨hload.symm, Or.inl rfl⟩

/-- Under cache coherence the result of `getAppSecrets` is exactly the
store's decryption. -/
theorem getAppSecrets_val (a : String) (s : Sys) (mk : MasterKey)
    (hl : s.state.isLocked = false) (hkey : s.vault.masterKey = some mk)
    (hcwf : CacheWF s.vault.secretsCache s.db mk) :
    (getAppSecrets a s).1 = loadAndDecryptAppSecrets a mk s.db := by
  have h := (getAppSecrets_res a s mk hl hkey).1
  cases hc : cacheLookup s.vault.secretsCache a with
  | some c =>
    rw [h, hc]
    exact (hcwf a c hc).symm
  | none =>
    rw [h, hc]

/-- `getAppSecrets` preserves cache coherence. -/
theorem getAppSecrets_cacheWF (a : String) (s : Sys) (mk : MasterKey)
    (hl : s.state.isLocked = false) (hkey : s.vault.masterKey = some mk)
    (hcwf : CacheWF s.vault.secretsCache s.db mk) :
    CacheWF (getAppSecrets a s).2.vault.secretsCache s.db mk := by
  rcases (getAppSecrets_res a s mk hl hkey).2 with h | ⟨d, hload, h⟩
  · rw [h]
    exact hcwf
  · rw [h]
    intro a' p hp
    by_cases he : a = a'
    · subst he
      rw [cacheLookup_upsert, if_pos rfl] at hp
      injection hp with hp
      rw [← hp]
      exact hload
    · rw [cacheLookup_upsert, if_neg he] at hp
      exact hcwf a' p hp

/-- `getAppSecrets` for one app never touches another app's cache entry. -/
theorem getAppSecrets_cache_other (a e : String) (s : Sys) (mk : MasterKey)
    (hl : s.state.isLocked = false) (hkey : s.vault.masterKey = some mk)
    (hne : a ≠ e) :
    cacheLookup (getAppSecrets a s).2.vault.secretsCache e =
      cacheLookup s.vault.secretsCache e := by
  rcases (getAppSecrets_res a s mk hl hkey).2 with h | ⟨d, _, h⟩
  · rw [h]
  · rw [h, cacheLookup_upsert, if_neg hne]

/-- One iteration of the password-change collection loop, on a coherent
unlocked state: appends the store's decryption when it succeeds, skips the
app when it fails. -/
theorem collectAppSecrets_step (acc : SecretsData) (st : Sys) (a : String)
    (mk : MasterKey) (hl : st.state.isLocked = false)
    (hkey : st.vault.masterKey = some mk)
    (hcwf : CacheWF st.vault.secretsCache st.db mk) :
    collectAppSecrets (acc, st) a =
      ((match loadAndDecryptAppSecrets a mk st.db with
        | some p => acc ++ [(a, p)]
        | none => acc), (getAppSecrets a st).2) := by
  unfold collectAppSecrets
  have hv := getAppSecrets_val a st mk hl hkey hcwf
  rcases hga : getAppSecrets a st with ⟨r, st'⟩
  rw [hga] at hv
  cases hload : loadAndDecryptAppSecrets a mk st.db with
  | some p =>
    rw [hload] at hv
    obtain rfl : r = some p := hv
    rfl
  | none =>
    rw [hload] at hv
    obtain rfl : r = none := hv
    rfl

/-- The whole collection loop on a coherent unlocked state: it accumulates
exactly the store's successful decryptions in id order, leaves store, RNG,
state and key material untouched, and keeps the cache coherent. -/
theorem collectFold_spec (ids : List String) (acc : SecretsData) (st : Sys)
    (mk : MasterKey)
    (hl : st.state.isLocked = false)
    (hkey : st.vault.masterKey = some mk)
    (hcwf : CacheWF st.vault.secretsCache st.db mk) :
    (ids.foldl collectAppSecrets (acc, st)).1 =
      acc ++ ids.filterMap (fun a =>
        (loadAndDecryptAppSecrets a mk st.db).map (fun p => (a, p))) ∧
    (ids.foldl collectAppSecrets (acc, st)).2.db = st.db ∧
    (ids.foldl collectAppSecrets (acc, st)).2.rng = st.rng ∧
    (ids.foldl collectAppSecrets (acc, st)).2.state = st.state ∧
    (ids.foldl collectAppSecrets (acc, st)).2.vault.masterKey =
      st.vault.masterKey ∧
    (ids.foldl collectAppSecrets (acc, st)).2.vault.password =
      st.vault.password ∧
    CacheWF (ids.foldl collectAppSecrets (acc, st)).2.vault.secretsCache
      st.db mk := by
  induction ids generalizing acc st with
  | nil =>
    refine ⟨by simp, rfl, rfl, rfl, rfl, rfl, hcwf⟩
  | cons a rest ih =>
    have hframe := getAppSecrets_frame a st
    obtain ⟨hdb, hrng, hstate, hmk, hpw, _, _⟩ := hframe
    have hl' : (getAppSecrets a st).2.state.isLocked = false := by
      rw [hstate]; exact hl
    have hkey' : (getAppSecrets a st).2.vault.masterKey = some mk := by
      rw [hmk]; exact hkey
    have hcwf' : CacheWF (getAppSecrets a st).2.vault.secretsCache
        (getAppSecrets a st).2.db mk := by
      rw [hdb]
      exact getAppSecrets_cacheWF a st mk hl hkey hcwf
    rw [List.foldl_cons, collectAppSecrets_step acc st a mk hl hkey hcwf]
    cases hload : loadAndDecryptAppSecrets a mk st.db with
    | some p =>
      obtain ⟨h1, h2, h3, h4, h5, h6, h7⟩ :=
        ih (acc ++ [(a, p)]) (getAppSecrets a st).2 hl' hkey' hcwf'
      rw [hdb] at h1 h2 h7
      rw [hrng] at h3
      rw [hstate] at h4
      rw [hmk] at h5
      rw [hpw] at h6
      refine ⟨?_, h2, h3, h4, h5, h6, h7⟩
      rw [h1, List.filterMap_cons, hload]
      simp
    | none =>
      obtain ⟨h1, h2, h3, h4, h5, h6, h7⟩ :=
        ih acc (getAppSecrets a st).2 hl' hkey' hcwf'
      rw [hdb] at h1 h2 h7
      rw [hrng] at h3
      rw [hstate] at h4
      rw [hmk] at h5
      rw [hpw] at h6
      refine ⟨?_, h2, h3, h4, h5, h6, h7⟩
      rw [h1, List.filterMap_cons, hload]
      simp

/-! ## Fold lemmas for the re-encryption path -/

theorem get_deleteApp_self (db : Store) (a : String)
    (hnd : (db.map Prod.fst).Nodup) :
    Store.get (deleteAppEncrypted a db) (DBKey.app a) = none :=
  Store.get_erase_self db _ hnd

theorem get_deleteApp_ne (db : Store) (a : String) (k : DBKey)
    (h : DBKey.app a ≠ k) :
    Store.get (deleteAppEncrypted a db) k = Store.get db k :=
  Store.get_erase_ne db _ _ h

theorem nodup_deleteApp (db : Store) (a : String)
    (hnd : (db.map Prod.fst).Nodup) :
    ((deleteAppEncrypted a db).map Prod.fst).Nodup :=
  Store.nodup_erase db _ hnd

theorem deleteFold_get_salt (ids : List String) (db : Store) :
    Store.get (ids.foldl (fun d appId => deleteAppEncrypted appId d) db)
      DBKey.salt = Store.get db DBKey.salt := by
  induction ids generalizing db with
  | nil => rfl
  | cons i rest ih =>
    rw [List.foldl_cons, ih]
    exact get_deleteApp_ne db _ _ (fun h => DBKey.noConfusion h)

theorem deleteFold_nodup (ids : List String) (db : Store)
    (hnd : (db.map Prod.fst).Nodup) :
    (((ids.foldl (fun d appId => deleteAppEncrypted appId d) db).map
      Prod.fst).Nodup) := by
  induction ids generalizing db with
  | nil => exact hnd
  | cons i rest ih =>
    rw [List.foldl_cons]
    exact ih _ (nodup_deleteApp db _ hnd)

theorem deleteFold_get_app (ids : List String) (db : Store) (a : String)
    (hnd : (db.map Prod.fst).Nodup) :
    Store.get (ids.foldl (fun d appId => deleteAppEncrypted appId d) db)
      (DBKey.app a) =
      if a ∈ ids then none else Store.get db (DBKey.app a) := by
  induction ids generalizing db with
  | nil => simp
  | cons i rest ih =>
    rw [List.foldl_cons, ih _ (nodup_deleteApp db _ hnd)]
    by_cases hai : a = i
    · subst hai
      rw [if_pos (List.mem_cons_self ..)]
      by_cases har : a ∈ rest
      · rw [if_pos har]
      · rw [if_neg har, get_deleteApp_self db a hnd]
    · by_cases har : a ∈ rest
      · rw [if_pos har, if_pos (List.mem_cons_of_mem _ har)]
      · rw [if_neg har,
          if_neg (by rw [List.mem_cons]; exact fun h => h.elim hai har),
          get_deleteApp_ne db i _ (fun h => hai ((DBKey.app.injEq .. ▸ h).symm))]

/-- `encryptAndStoreAppSecrets`, unfolded: store the secretbox under the
freshly drawn nonce. -/
theorem encStore_eq (a : String) (p : AppSecrets) (mk : MasterKey)
    (db : Store) (rng : Nat) :
    encryptAndStoreAppSecrets a p mk db rng =
      (setAppEncrypted a (.secretbox (deriveDEK mk a) rng p) rng db,
        rng + 1) := rfl

theorem encFold_get_salt (secrets : SecretsData) (mk : MasterKey)
    (db : Store) (rng : Nat) :
    Store.get (secrets.foldl
      (fun acc entry =>
        encryptAndStoreAppSecrets entry.1 entry.2 mk acc.1 acc.2)
      (db, rng)).1 DBKey.salt = Store.get db DBKey.salt := by
  induction secrets generalizing db rng with
  | nil => rfl
  | cons hd tl ih =>
    rw [List.foldl_cons]
    exact (ih (setAppEncrypted hd.1
        (.secretbox (deriveDEK mk hd.1) rng hd.2) rng db) (rng + 1)).trans
      (Store.get_put_ne db _ _ _ (fun h => DBKey.noConfusion h))

theorem encFold_get_app_notmem (secrets : SecretsData) (mk : MasterKey)
    (db : Store) (rng : Nat) (a : String)
    (h : a ∉ secrets.map Prod.fst) :
    Store.get (secrets.foldl
      (fun acc entry =>
        encryptAndStoreAppSecrets entry.1 entry.2 mk acc.1 acc.2)
      (db, rng)).1 (DBKey.app a) = Store.get db (DBKey.app a) := by
  induction secrets generalizing db rng with
  | nil => rfl
  | cons hd tl ih =>
    rw [List.map_cons, List.mem_cons] at h
    push_neg at h
    rw [List.foldl_cons]
    refine (ih _ _ h.2).trans
      (Store.get_put_ne db _ _ _ (fun he => ?_))
    exact h.1 ((DBKey.app.injEq .. ▸ he) ▸ rfl)

theorem encFold_nodup (secrets : SecretsData) (mk : MasterKey)
    (db : Store) (rng : Nat) (hnd : (db.map Prod.fst).Nodup) :
    ((secrets.foldl
      (fun acc entry =>
        encryptAndStoreAppSecrets entry.1 entry.2 mk acc.1 acc.2)
      (db, rng)).1.map Prod.fst).Nodup := by
  induction secrets generalizing db rng with
  | nil => exact hnd
  | cons hd tl ih =>
    rw [List.foldl_cons]
    exact ih _ _ (Store.nodup_put db _ _ hnd)

theorem encFold_get_app_mem (secrets : SecretsData) (mk : MasterKey)
    (db : Store) (rng : Nat) (a : String) (p : AppSecrets)
    (hnd : (secrets.map Prod.fst).Nodup) (hmem : (a, p) ∈ secrets) :
    ∃ n, Store.get (secrets.foldl
      (fun acc entry =>
        encryptAndStoreAppSecrets entry.1 entry.2 mk acc.1 acc.2)
      (db, rng)).1 (DBKey.app a) =
      some { data := .cipher (.secretbox (deriveDEK mk a) n p),
             nonce := some n } := by
  induction secrets generalizing db rng with
  | nil => cases hmem
  | cons hd tl ih =>
    rw [List.map_cons, List.nodup_cons] at hnd
    rcases List.mem_cons.mp hmem with h | h
    · subst h
      refine ⟨rng, ?_⟩
      rw [List.foldl_cons, encFold_get_app_notmem tl mk _ _ a hnd.1]
      exact Store.get_put_self db _ _
    · rw [List.foldl_cons]
      exact ih _ _ hnd.2 h

/-- Conforming writes preserve `AppsWF`. -/
theorem AppsWF.putApp {db : Store} {mk : MasterKey} (hwf : AppsWF db mk)
    (a : String) (n : Bytes) (p : AppSecrets) :
    AppsWF (setAppEncrypted a (.secretbox (deriveDEK mk a) n p) n db) mk := by
  intro a' e hmem
  rcases Store.mem_put db _ _ _ _ hmem with ⟨hk, hv⟩ | hmem'
  · obtain rfl : a' = a := DBKey.app.injEq .. ▸ hk
    exact ⟨n, p, by rw [hv], by rw [hv]⟩
  · exact hwf a' e hmem'

theorem encFold_appsWF (secrets : SecretsData) (mk : MasterKey)
    (db : Store) (rng : Nat) (hwf : AppsWF db mk) :
    AppsWF (secrets.foldl
      (fun acc entry =>
        encryptAndStoreAppSecrets entry.1 entry.2 mk acc.1 acc.2)
      (db, rng)).1 mk := by
  induction secrets generalizing db rng with
  | nil => exact hwf
  | cons hd tl ih =>
    rw [List.foldl_cons]
    exact ih _ _ (hwf.putApp hd.1 rng hd.2)

/-- `reencryptWithNewPassword`, unfolded to its two folds: the fresh salt is
the current RNG draw, every existing app record is deleted, and the supplied
bundles are re-encrypted under the new master key. -/
theorem reencrypt_eq (secrets : SecretsData) (newPassword : String)
    (db : Store) (rng : Nat) :
    reencryptWithNewPassword secrets newPassword db rng =
      secrets.foldl
        (fun acc entry => encryptAndStoreAppSecrets entry.1 entry.2
          (deriveMasterKey newPassword rng) acc.1 acc.2)
        ((getAllAppIds (setSalt rng db)).foldl
          (fun d appId => deleteAppEncrypted appId d) (setSalt rng db),
         rng + 1) := rfl

/-- The full effect of `reencryptWithNewPassword` on a store with unique
keys, for bundles with unique app ids: the result is well formed under the
new key `⟨newPassword, rng⟩` (with the brand-new salt `rng`), every supplied
bundle decrypts back to its plaintext, and every app id NOT among the
supplied bundles has no record at all. -/
theorem reencrypt_spec (secrets : SecretsData) (newPassword : String)
    (db : Store) (rng : Nat)
    (hnd : (db.map Prod.fst).Nodup)
    (hsnd : (secrets.map Prod.fst).Nodup) :
    WFStore (reencryptWithNewPassword secrets newPassword db rng).1
      { password := newPassword, salt := rng } ∧
    (∀ a p, (a, p) ∈ secrets →
      loadAndDecryptAppSecrets a { password := newPassword, salt := rng }
        (reencryptWithNewPassword secrets newPassword db rng).1 = some p) ∧
    (∀ a, a ∉ secrets.map Prod.fst →
      Store.get (reencryptWithNewPassword secrets newPassword db rng).1
        (DBKey.app a) = none) := by
  rw [reencrypt_eq]
  have hnd₁ : ((setSalt rng db).map Prod.fst).Nodup :=
    Store.nodup_put db _ _ hnd
  have hdel : ∀ a, Store.get
      ((getAllAppIds (setSalt rng db)).foldl
        (fun d appId => deleteAppEncrypted appId d) (setSalt rng db))
      (DBKey.app a) = none := by
    intro a
    rw [deleteFold_get_app _ _ _ hnd₁]
    by_cases hmem : a ∈ getAllAppIds (setSalt rng db)
    · rw [if_pos hmem]
    · rw [if_neg hmem]
      cases hget : Store.get (setSalt rng db) (DBKey.app a) with
      | none => rfl
      | some e =>
        exact absurd ((mem_getAllAppIds _ _).mpr
          (Store.mem_keys_of_get _ _ _ hget)) hmem
  have hnd₂ : (((getAllAppIds (setSalt rng db)).foldl
      (fun d appId => deleteAppEncrypted appId d)
      (setSalt rng db)).map Prod.fst).Nodup :=
    deleteFold_nodup _ _ hnd₁
  have happs : AppsWF ((getAllAppIds (setSalt rng db)).foldl
      (fun d appId => deleteAppEncrypted appId d) (setSalt rng db))
      { password := newPassword, salt := rng } := by
    intro a e hmem
    have : (Store.get _ (DBKey.app a)).isSome :=
      Store.get_isSome_of_mem_keys _ _
        (List.mem_map.mpr ⟨(DBKey.app a, e), hmem, rfl⟩)
    rw [hdel a] at this
    cases this
  have hsalt : Store.get ((getAllAppIds (setSalt rng db)).foldl
      (fun d appId => deleteAppEncrypted appId d) (setSalt rng db))
      DBKey.salt = some { data := .raw rng } := by
    rw [deleteFold_get_salt]
    exact Store.get_put_self db _ _
  refine ⟨⟨encFold_nodup _ _ _ _ hnd₂, ?_, encFold_appsWF _ _ _ _ happs⟩,
    ?_, ?_⟩
  · show getSalt _ = _
    unfold getSalt
    rw [encFold_get_salt, hsalt]
  · intro a p hmem
    obtain ⟨n, hget⟩ := encFold_get_app_mem secrets
      (deriveMasterKey newPassword rng) _ (rng + 1) a p hsnd hmem
    unfold loadAndDecryptAppSecrets getAppEncrypted
    rw [hget]
    exact decryptSecrets_self _ _ _
  · intro a hmem
    rw [encFold_get_app_notmem _ _ _ _ _ hmem]
    exact hdel a

/-- The shape of a successful `changeMasterPassword`: collect, re-encrypt,
install the new key. -/
theorem changeMasterPassword_ok (newPw : String) (s : Sys) (mk : MasterKey)
    (hkey : s.vault.masterKey = some mk) :
    changeMasterPassword newPw s = .ok
      { db := (reencryptWithNewPassword
          ((getAllAppIds s.db).foldl collectAppSecrets ([], s)).1 newPw
          ((getAllAppIds s.db).foldl collectAppSecrets ([], s)).2.db
          ((getAllAppIds s.db).foldl collectAppSecrets ([], s)).2.rng).1,
        rng := (reencryptWithNewPassword
          ((getAllAppIds s.db).foldl collectAppSecrets ([], s)).1 newPw
          ((getAllAppIds s.db).foldl collectAppSecrets ([], s)).2.db
          ((getAllAppIds s.db).foldl collectAppSecrets ([], s)).2.rng).2,
        vault := {
          password := some newPw,
          masterKey := getMasterKey newPw (reencryptWithNewPassword
            ((getAllAppIds s.db).foldl collectAppSecrets ([], s)).1 newPw
            ((getAllAppIds s.db).foldl collectAppSecrets ([], s)).2.db
            ((getAllAppIds s.db).foldl collectAppSecrets ([], s)).2.rng).1,
          secretsCache := ((getAllAppIds s.db).foldl collectAppSecrets
            ([], s)).2.vault.secretsCache },
        state := ((getAllAppIds s.db).foldl collectAppSecrets ([], s)).2.state,
        autoLockTimer := ((getAllAppIds s.db).foldl collectAppSecrets
          ([], s)).2.autoLockTimer,
        now := ((getAllAppIds s.db).foldl collectAppSecrets ([], s)).2.now }
    := by
  unfold changeMasterPassword
  rw [hkey]

/-- The app ids among the collected bundles are the ids whose records
decrypt. -/
theorem filterMapLoad_keys (ids : List String) (mk : MasterKey)
    (db : Store) :
    (ids.filterMap (fun a =>
        (loadAndDecryptAppSecrets a mk db).map (fun p => (a, p)))).map
      Prod.fst =
      ids.filter (fun a => (loadAndDecryptAppSecrets a mk db).isSome) := by
  induction ids with
  | nil => rfl
  | cons a rest ih =>
    rw [List.filterMap_cons, List.filter_cons]
    cases hload : loadAndDecryptAppSecrets a mk db with
    | some p => simp [ih]
    | none => simp [ih]

theorem filterMapLoad_mem (ids : List String) (mk : MasterKey) (db : Store)
    (a : String) (p : AppSecrets) (ha : a ∈ ids)
    (hload : loadAndDecryptAppSecrets a mk db = some p) :
    (a, p) ∈ ids.filterMap (fun a =>
      (loadAndDecryptAppSecrets a mk db).map (fun p => (a, p))) :=
  List.mem_filterMap.mpr ⟨a, ha, by rw [hload]; rfl⟩

theorem filterMapLoad_mem_inv (ids : List String) (mk : MasterKey)
    (db : Store) (x : String × AppSecrets)
    (hx : x ∈ ids.filterMap (fun a =>
      (loadAndDecryptAppSecrets a mk db).map (fun p => (a, p)))) :
    x.1 ∈ ids ∧ loadAndDecryptAppSecrets x.1 mk db = some x.2 := by
  obtain ⟨a, ha, hfa⟩ := List.mem_filterMap.mp hx
  cases hload : loadAndDecryptAppSecrets a mk db with
  | none => rw [hload] at hfa; cases hfa
  | some p =>
    rw [hload] at hfa
    injection hfa with hfa
    obtain rfl : x = (a, p) := hfa.symm
    exact ⟨ha, hload⟩

/-- A concrete tampered vault whose corrupted entity is still in the
plaintext cache (it was cached before the store was tampered with). -/
def c10cexSys : Sys :=
  { tamperedSys with
    vault := { tamperedSys.vault with
      secretsCache := [("app1", { client_secret := "s" })] } }

/-- **C10 (counterexample).** The claim fails for an entity whose stored
ciphertext does not decrypt but whose plaintext is cached:
`changeMasterPassword` reads through the cache, so the entity survives the
password change — a new record is written and decrypts to the cached
plaintext under the new key. -/
theorem c10_counterexample :
    (changeMasterPassword "new" c10cexSys).isOk = true ∧
    (Store.get (resultState (changeMasterPassword "new" c10cexSys)
      c10cexSys).db (DBKey.app "app1")).isSome = true ∧
    loadAndDecryptAppSecrets "app1" { password := "new", salt := 2 }
      (resultState (changeMasterPassword "new" c10cexSys) c10cexSys).db =
      some { client_secret := "s" } := by
  decide

/-- **C10 (amended).** During `changeMasterPassword`, an entity whose stored
record fails to decrypt under the current master key AND whose plaintext is
not rescued by the coherent cache is silently dropped: the operation
succeeds (no error raised) and the entity has no record at all in the
resulting store — its secret is permanently lost. -/
theorem c10_change_password_drops_undecryptable (s : Sys) (e newPw : String)
    (mk : MasterKey) (c : Ciphertext) (n : Bytes)
    (hkey : s.vault.masterKey = some mk)
    (hl : s.state.isLocked = false)
    (hcwf : CacheWF s.vault.secretsCache s.db mk)
    (hnd : (s.db.map Prod.fst).Nodup)
    (henc : getAppEncrypted s.db e = some (c, n))
    (hfail : decryptSecrets c n (deriveDEK mk e) = none) :
    ∃ s', changeMasterPassword newPw s = .ok s' ∧
      Store.get s'.db (DBKey.app e) = none := by
  have hload : loadAndDecryptAppSecrets e mk s.db = none := by
    unfold loadAndDecryptAppSecrets
    rw [henc]
    exact hfail
  obtain ⟨h1, h2, h3, _, _, _, _⟩ :=
    collectFold_spec (getAllAppIds s.db) [] s mk hl hkey hcwf
  rw [List.nil_append] at h1
  refine ⟨_, changeMasterPassword_ok newPw s mk hkey, ?_⟩
  show Store.get (reencryptWithNewPassword
      ((getAllAppIds s.db).foldl collectAppSecrets ([], s)).1 newPw
      ((getAllAppIds s.db).foldl collectAppSecrets ([], s)).2.db
      ((getAllAppIds s.db).foldl collectAppSecrets ([], s)).2.rng).1
    (DBKey.app e) = none
  rw [h1, h2, h3]
  have hsnd : (((getAllAppIds s.db).filterMap (fun a =>
      (loadAndDecryptAppSecrets a mk s.db).map (fun p => (a, p)))).map
      Prod.fst).Nodup := by
    rw [filterMapLoad_keys]
    exact (getAllAppIds_nodup s.db hnd).filter _
  refine (reencrypt_spec _ newPw s.db s.rng hnd hsnd).2.2 e ?_
  intro hmem
  obtain ⟨x, hx, hfst⟩ := List.mem_map.mp hmem
  obtain ⟨_, hxload⟩ := filterMapLoad_mem_inv _ mk s.db x hx
  rw [hfst] at hxload
  rw [hload] at hxload
  cases hxload

/-- Witness for C10's amended theorem at the concrete tampered vault with an
empty (hence vacuously coherent) cache. -/
theorem c10_change_password_drops_undecryptable_witness :
    ∃ s', changeMasterPassword "new" tamperedSys = .ok s' ∧
      Store.get s'.db (DBKey.app "app1") = none := by
  refine c10_change_password_drops_undecryptable tamperedSys "app1" "new"
    { password := "pw0", salt := 0 } (.garbage 99) 1 rfl rfl ?_ (by decide)
    rfl rfl
  intro a p hp
  rw [show tamperedSys.vault.secretsCache = [] from rfl,
    cacheLookup_nil] at hp
  cases hp

/-! ## Password change preserves data (C4) -/

theorem lockSecrets_db (s : Sys) : (lockSecrets s).db = s.db := rfl

theorem lockSecrets_hasSecrets (s : Sys) :
    (lockSecrets s).state.hasSecrets = s.state.hasSecrets := rfl

theorem lockSecrets_cache (s : Sys) :
    (lockSecrets s).vault.secretsCache = [] := rfl

theorem getAppEncrypted_mem (db : Store) (a : String)
    (cn : Ciphertext × Bytes) (h : getAppEncrypted db a = some cn) :
    a ∈ getAllAppIds db := by
  unfold getAppEncrypted at h
  cases hget : Store.get db (DBKey.app a) with
  | none => rw [hget] at h; cases h
  | some e =>
    exact (mem_getAllAppIds db a).mpr (Store.mem_keys_of_get db _ e hget)

theorem load_mem (db : Store) (a : String) (mk : MasterKey) (p : AppSecrets)
    (h : loadAndDecryptAppSecrets a mk db = some p) :
    a ∈ getAllAppIds db := by
  unfold loadAndDecryptAppSecrets at h
  cases hge : getAppEncrypted db a with
  | none => rw [hge] at h; cases h
  | some cn => exact getAppEncrypted_mem db a cn hge

/-- A successful `changeMasterPassword` and the equalities characterizing
the resulting state. -/
theorem changeMasterPassword_ok' (newPw : String) (s : Sys)
    (mk : MasterKey) (hkey : s.vault.masterKey = some mk) :
    ∃ s', changeMasterPassword newPw s = .ok s' ∧
      s'.db = (reencryptWithNewPassword
        ((getAllAppIds s.db).foldl collectAppSecrets ([], s)).1 newPw
        ((getAllAppIds s.db).foldl collectAppSecrets ([], s)).2.db
        ((getAllAppIds s.db).foldl collectAppSecrets ([], s)).2.rng).1 ∧
      s'.vault.masterKey = getMasterKey newPw s'.db ∧
      s'.vault.password = some newPw ∧
      s'.state = ((getAllAppIds s.db).foldl collectAppSecrets
        ([], s)).2.state :=
  ⟨_, changeMasterPassword_ok newPw s mk hkey, rfl, rfl, rfl, rfl⟩

/-- A vault holding a salt but zero entity records, initialized and then
unlocked with `"pw"` (so `hasSecrets` is true). -/
def emptyVaultUnlocked : Sys :=
  (unlockSecrets "pw" (initSecretsStore
    (freshSys [(DBKey.salt, { data := EntryData.raw 0 })] 1 0))).2

/-- **C4 (counterexample).** For an unlocked vault with zero entity records,
after `changeMasterPassword("newpw")` and a lock, `unlock` with the OLD
password returns true (password verification accepts any password against an
empty entity set), refuting "unlock(oldPw) returns false" as stated for
every unlocked vault. -/
theorem c4_counterexample :
    emptyVaultUnlocked.state.hasSecrets = true ∧
    (changeMasterPassword "newpw" emptyVaultUnlocked).isOk = true ∧
    (unlockSecrets "pw" (lockSecrets (resultState
      (changeMasterPassword "newpw" emptyVaultUnlocked)
      emptyVaultUnlocked))).1 = true := by
  decide

/-- **C4 (amended).** For every unlocked coherent vault with AT LEAST ONE
entity record and a new password DIFFERENT from the old one:
`changeMasterPassword(newPw)` succeeds, generates a brand-new salt (never
reusing the old one), re-encrypts every entity record in the store (not
just cached ones), every entity previously readable is still readable with
identical plaintext after a lock/unlock(newPw) cycle, and unlock(oldPw)
returns false. -/
theorem c4_change_password_amended (s : Sys) (newPw : String)
    (mk : MasterKey)
    (hkey : s.vault.masterKey = some mk)
    (hl : s.state.isLocked = false)
    (hhs : s.state.hasSecrets = true)
    (hwf : WFStore s.db mk)
    (hcwf : CacheWF s.vault.secretsCache s.db mk)
    (hne : getAllAppIds s.db ≠ [])
    (hpw : newPw ≠ mk.password)
    (hfresh : mk.salt < s.rng) :
    ∃ s', changeMasterPassword newPw s = .ok s' ∧
      getSalt s'.db = some s.rng ∧
      mk.salt ≠ s.rng ∧
      s'.vault.masterKey = some { password := newPw, salt := s.rng } ∧
      s'.state = s.state ∧
      (unlockSecrets newPw (lockSecrets s')).1 = true ∧
      (∀ a p, (getAppSecrets a s).1 = some p →
        (getAppSecrets a (unlockSecrets newPw (lockSecrets s')).2).1
          = some p) ∧
      (unlockSecrets mk.password (lockSecrets s')).1 = false := by
  obtain ⟨h1, h2, h3, h4, _, _, _⟩ :=
    collectFold_spec (getAllAppIds s.db) [] s mk hl hkey hcwf
  rw [List.nil_append] at h1
  have hsnd : ((((getAllAppIds s.db).filterMap (fun a =>
      (loadAndDecryptAppSecrets a mk s.db).map (fun p => (a, p))))).map
      Prod.fst).Nodup := by
    rw [filterMapLoad_keys]
    exact (getAllAppIds_nodup s.db hwf.nodup).filter _
  obtain ⟨hwf', hloadall, _⟩ := reencrypt_spec
    ((getAllAppIds s.db).filterMap (fun a =>
      (loadAndDecryptAppSecrets a mk s.db).map (fun p => (a, p))))
    newPw s.db s.rng hwf.nodup hsnd
  obtain ⟨s', hcm, hdb', hmk', hpw', hstate'⟩ :=
    changeMasterPassword_ok' newPw s mk hkey
  rw [h1, h2, h3] at hdb'
  have hsalt' : getSalt s'.db = some s.rng := by
    rw [hdb']
    exact hwf'.salt
  have hgm : getMasterKey newPw s'.db =
      some { password := newPw, salt := s.rng } := by
    rw [hdb']
    exact getMasterKey_of_salt newPw hwf'.salt
  have hhs₂ : (lockSecrets s').state.hasSecrets = true := by
    rw [lockSecrets_hasSecrets, hstate', h4]
    exact hhs
  have hvt : verifyPassword newPw (lockSecrets s').db = true := by
    rw [lockSecrets_db, hdb']
    exact verifyPassword_true hwf'
  -- at least one record survives into the new store
  have hne' : getAllAppIds s'.db ≠ [] := by
    obtain ⟨a₀, rest, hids⟩ := List.exists_cons_of_ne_nil hne
    have ha₀ : a₀ ∈ getAllAppIds s.db := hids ▸ List.mem_cons_self ..
    obtain ⟨n₀, p₀, henc₀⟩ := hwf.appIds_decrypt ha₀
    have hload₀ : loadAndDecryptAppSecrets a₀ mk s.db = some p₀ := by
      unfold loadAndDecryptAppSecrets
      rw [henc₀]
      exact decryptSecrets_self _ _ _
    have hX₀ := filterMapLoad_mem (getAllAppIds s.db) mk s.db a₀ p₀
      ha₀ hload₀
    have hl₀ := hloadall a₀ p₀ hX₀
    rw [← hdb'] at hl₀
    exact List.ne_nil_of_mem (load_mem s'.db a₀ _ p₀ hl₀)
  refine ⟨s', hcm, hsalt', Nat.ne_of_lt hfresh, by rw [hmk']; exact hgm,
    by rw [hstate']; exact h4, ?_, ?_, ?_⟩
  · show (unlockSecrets newPw (lockSecrets s')).1 = true
    unfold unlockSecrets
    rw [if_neg (fun hc => hc hhs₂), if_neg (fun hc => hc hvt)]
  · intro a p hap
    have hload : loadAndDecryptAppSecrets a mk s.db = some p := by
      rw [← getAppSecrets_val a s mk hl hkey hcwf]
      exact hap
    have hmem : a ∈ getAllAppIds s.db := load_mem s.db a mk p hload
    have hX := filterMapLoad_mem (getAllAppIds s.db) mk s.db a p hmem hload
    have hload' := hloadall a p hX
    rw [← hdb'] at hload'
    have hgm₂ : getMasterKey newPw (lockSecrets s').db =
        some { password := newPw, salt := s.rng } := by
      rw [lockSecrets_db]
      exact hgm
    have hload₂ : loadAndDecryptAppSecrets a
        { password := newPw, salt := s.rng } (lockSecrets s').db = some p := by
      rw [lockSecrets_db]
      exact hload'
    show (getAppSecrets a (unlockSecrets newPw (lockSecrets s')).2).1
      = some p
    unfold unlockSecrets
    rw [if_neg (fun hc => hc hhs₂), if_neg (fun hc => hc hvt)]
    unfold getAppSecrets
    simp only [startAutoLockTimer, lockSecrets, stopAutoLockTimer,
      VaultClosure.clear, cacheLookup_nil, hgm₂, hload₂,
      Bool.false_eq_true, if_false]
    simp only [hgm, hload']
  · have hvf : verifyPassword mk.password (lockSecrets s').db = false := by
      rw [lockSecrets_db, hdb']
      refine verifyPassword_false hwf' ?_ (fun h => hpw h.symm)
      rw [← hdb']
      exact hne'
    show (unlockSecrets mk.password (lockSecrets s')).1 = false
    unfold unlockSecrets
    rw [if_neg (fun hc => hc hhs₂), hvf,
      if_pos (fun h => Bool.noConfusion h)]

/-- The concrete one-app store is well formed under ⟨"pw0", 0⟩. -/
theorem oneAppSys_wf :
    WFStore oneAppSys.db { password := "pw0", salt := 0 } := by
  refine ⟨by decide, rfl, ?_⟩
  intro a e hmem
  simp only [oneAppSys, List.mem_cons, List.not_mem_nil, or_false,
    Prod.mk.injEq] at hmem
  rcases hmem with ⟨hk, _⟩ | ⟨hk, hv⟩
  · exact absurd hk (by simp)
  · obtain rfl : a = "app1" := by simpa using hk
    exact ⟨1, { client_secret := "s" }, by rw [hv], by rw [hv]⟩

/-- Witness for C4's amended theorem at the concrete one-app vault. -/
theorem c4_change_password_amended_witness :
    ∃ s', changeMasterPassword "npw" oneAppSys = .ok s' ∧
      getSalt s'.db = some 2 ∧
      (0 : Bytes) ≠ 2 ∧
      s'.vault.masterKey = some { password := "npw", salt := 2 } ∧
      s'.state = oneAppSys.state ∧
      (unlockSecrets "npw" (lockSecrets s')).1 = true ∧
      (∀ a p, (getAppSecrets a oneAppSys).1 = some p →
        (getAppSecrets a (unlockSecrets "npw" (lockSecrets s')).2).1
          = some p) ∧
      (unlockSecrets "pw0" (lockSecrets s')).1 = false := by
  have hcwf : CacheWF oneAppSys.vault.secretsCache oneAppSys.db
      { password := "pw0", salt := 0 } := by
    intro a p hp
    rw [show oneAppSys.vault.secretsCache = [] from rfl,
      cacheLookup_nil] at hp
    cases hp
  exact c4_change_password_amended oneAppSys "npw"
    { password := "pw0", salt := 0 } rfl rfl rfl oneAppSys_wf hcwf
    (by decide) (by decide) (by decide)

/-! ## The vault state invariant (C7) -/

theorem Store.mem_erase_sub (db : Store) (k : DBKey) (x : DBKey × DBEntry)
    (h : x ∈ db.erase k) : x ∈ db := by
  induction db with
  | nil => rw [Store.erase_nil] at h; cases h
  | cons hd tl ih =>
    obtain ⟨k₀, v₀⟩ := hd
    by_cases h₀ : k₀ = k
    · subst h₀
      rw [Store.erase_cons, if_pos rfl] at h
      exact List.mem_cons_of_mem _ h
    · rw [Store.erase_cons, if_neg h₀] at h
      rcases List.mem_cons.mp h with h | h
      · exact List.mem_cons.mpr (Or.inl h)
      · exact List.mem_cons_of_mem _ (ih h)

/-- Salt records hold raw bytes — true of every store this code can write,
since the only writers of the salt key (`setSalt`, directly or via
`getOrCreateSalt`, `reencryptWithNewPassword` and import) store raw salt
bytes. -/
def SaltRaw (db : Store) : Prop :=
  ∀ e, (DBKey.salt, e) ∈ db → ∃ b, e.data = EntryData.raw b

theorem saltRaw_setApp (db : Store) (a : String) (c : Ciphertext) (n : Bytes)
    (h : SaltRaw db) : SaltRaw (setAppEncrypted a c n db) := by
  intro e hmem
  rcases Store.mem_put db _ _ _ _ hmem with ⟨hk, _⟩ | hm
  · exact absurd hk (by simp)
  · exact h e hm

theorem saltRaw_setSalt (db : Store) (b : Bytes) (h : SaltRaw db) :
    SaltRaw (setSalt b db) := by
  intro e hmem
  rcases Store.mem_put db _ _ _ _ hmem with ⟨_, hv⟩ | hm
  · exact ⟨b, by rw [hv]⟩
  · exact h e hm

theorem saltRaw_erase (db : Store) (k : DBKey) (h : SaltRaw db) :
    SaltRaw (db.erase k) :=
  fun e hmem => h e (Store.mem_erase_sub db k _ hmem)

theorem saltRaw_initSalt (db : Store) (rng : Nat) (h : SaltRaw db) :
    SaltRaw (initSalt db rng).1 := by
  unfold initSalt getOrCreateSalt
  cases hs : getSalt db with
  | some b => exact h
  | none => exact saltRaw_setSalt db rng h

theorem initSalt_salt_isSome (db : Store) (rng : Nat) :
    (getSalt (initSalt db rng).1).isSome = true := by
  unfold initSalt getOrCreateSalt
  cases hs : getSalt db with
  | some b => rw [hs]; rfl
  | none => rw [getSalt_setSalt]; rfl

theorem get_setSalt_self (db : Store) (b : Bytes) :
    Store.get (setSalt b db) DBKey.salt = some { data := .raw b } :=
  Store.get_put_self db _ _

theorem getSalt_isSome_of_has (db : Store) (hsr : SaltRaw db)
    (h : hasStoredSecrets db = true) : (getSalt db).isSome = true := by
  unfold hasStoredSecrets at h
  cases hget : Store.get db DBKey.salt with
  | none => rw [hget] at h; cases h
  | some e =>
    obtain ⟨b, hb⟩ := hsr e (Store.get_mem db _ e hget)
    unfold getSalt
    rw [hget]
    simp only [hb]
    rfl

theorem getMasterKey_isSome (pw : String) (db : Store)
    (h : (getSalt db).isSome = true) :
    (getMasterKey pw db).isSome = true := by
  unfold getMasterKey
  cases hs : getSalt db with
  | none => rw [hs] at h; cases h
  | some b => rfl

theorem saltRaw_deleteFold (ids : List String) (db : Store)
    (h : SaltRaw db) :
    SaltRaw (ids.foldl (fun d appId => deleteAppEncrypted appId d) db) := by
  induction ids generalizing db with
  | nil => exact h
  | cons i rest ih =>
    rw [List.foldl_cons]
    exact ih _ (saltRaw_erase db _ h)

theorem saltRaw_encFold (secrets : SecretsData) (mk : MasterKey)
    (db : Store) (rng : Nat) (h : SaltRaw db) :
    SaltRaw (secrets.foldl
      (fun acc entry =>
        encryptAndStoreAppSecrets entry.1 entry.2 mk acc.1 acc.2)
      (db, rng)).1 := by
  induction secrets generalizing db rng with
  | nil => exact h
  | cons hd tl ih =>
    rw [List.foldl_cons]
    exact ih _ _ (saltRaw_setApp db _ _ _ h)

theorem saltRaw_reencrypt (secrets : SecretsData) (newPw : String)
    (db : Store) (rng : Nat) (h : SaltRaw db) :
    SaltRaw (reencryptWithNewPassword secrets newPw db rng).1 := by
  rw [reencrypt_eq]
  exact saltRaw_encFold _ _ _ _
    (saltRaw_deleteFold _ _ (saltRaw_setSalt db rng h))

theorem reencrypt_salt_isSome (secrets : SecretsData) (newPw : String)
    (db : Store) (rng : Nat) :
    (getSalt (reencryptWithNewPassword secrets newPw db rng).1).isSome
      = true := by
  rw [reencrypt_eq]
  unfold getSalt
  rw [encFold_get_salt, deleteFold_get_salt, get_setSalt_self]
  rfl

theorem saltRaw_importFold (l : List (String × Bytes × Ciphertext))
    (db : Store) (h : SaltRaw db) :
    SaltRaw (l.foldl
      (fun d entry => setAppEncrypted entry.1 entry.2.2 entry.2.1 d) db) := by
  induction l generalizing db with
  | nil => exact h
  | cons hd tl ih =>
    rw [List.foldl_cons]
    exact ih _ (saltRaw_setApp db _ _ _ h)

theorem collectAppSecrets_snd (acc : SecretsData × Sys) (a : String) :
    (collectAppSecrets acc a).2 = (getAppSecrets a acc.2).2 := by
  unfold collectAppSecrets
  rcases hga : getAppSecrets a acc.2 with ⟨r, st'⟩
  cases r <;> rfl

/-- The collection loop never changes anything but the cache, regardless of
coherence. -/
theorem collectFold_frame (ids : List String) (acc : SecretsData)
    (st : Sys) :
    (ids.foldl collectAppSecrets (acc, st)).2.db = st.db ∧
    (ids.foldl collectAppSecrets (acc, st)).2.rng = st.rng ∧
    (ids.foldl collectAppSecrets (acc, st)).2.state = st.state ∧
    (ids.foldl collectAppSecrets (acc, st)).2.vault.masterKey =
      st.vault.masterKey ∧
    (ids.foldl collectAppSecrets (acc, st)).2.vault.password =
      st.vault.password := by
  induction ids generalizing acc st with
  | nil => exact ⟨rfl, rfl, rfl, rfl, rfl⟩
  | cons a rest ih =>
    rw [List.foldl_cons]
    rcases hc : collectAppSecrets (acc, st) a with ⟨acc', st'⟩
    have h2 : st' = (getAppSecrets a st).2 := by
      have hsnd := collectAppSecrets_snd (acc, st) a
      rw [hc] at hsnd
      exact hsnd
    obtain ⟨f1, f2, f3, f4, f5, _, _⟩ := getAppSecrets_frame a st
    obtain ⟨g1, g2, g3, g4, g5⟩ := ih acc' (getAppSecrets a st).2
    rw [h2]
    exact ⟨g1.trans f1, g2.trans f2, g3.trans f3, g4.trans f4, g5.trans f5⟩

theorem resultState_ok (x s : Sys) : resultState (.ok x) s = x := rfl

theorem resultState_error (e : VaultError) (s : Sys) :
    resultState (.error e) s = s := rfl

/-- The inductive system invariant: the C7 properties (master key held iff
unlocked; cache empty when locked) together with the auxiliary facts that
make them inductive (the flags imply a usable salt; salt records are raw). -/
def Inv (s : Sys) : Prop :=
  (s.vault.masterKey.isSome = true ↔ s.state.isLocked = false) ∧
  (s.state.isLocked = true → s.vault.secretsCache = []) ∧
  (s.state.hasSecrets = true → (getSalt s.db).isSome = true) ∧
  (s.state.isLocked = false → (getSalt s.db).isSome = true) ∧
  SaltRaw s.db

/-- One invocation of a state-changing public operation of the subsystem
(a throwing operation that throws leaves the state as it was). -/
inductive Step : Sys → Sys → Prop
  | init (s : Sys) : Step s (initSecretsStore s)
  | unlock (pw : String) (s : Sys) : Step s (unlockSecrets pw s).2
  | lock (s : Sys) : Step s (lockSecrets s)
  | getSecrets (a : String) (s : Sys) : Step s (getAppSecrets a s).2
  | getSecret (a : String) (f : AppSecretField) (s : Sys) :
      Step s (getAppSecret a f s).2
  | setSecrets (a : String) (u : AppSecretsPatch) (s : Sys) :
      Step s (resultState (setAppSecrets a u s) s)
  | setSecret (a : String) (f : AppSecretField) (v : String) (s : Sys) :
      Step s (resultState (setAppSecret a f v s) s)
  | removeSecrets (a : String) (s : Sys) :
      Step s (resultState (removeAppSecrets a s) s)
  | changePw (pw : String) (s : Sys) :
      Step s (resultState (changeMasterPassword pw s) s)
  | reset (s : Sys) : Step s (resetAllSecrets s)
  | activity (s : Sys) : Step s (resetAutoLockTimer s)
  | tick (dt : Nat) (s : Sys) : Step s (advanceTime dt s).2
  | importData (d : EncryptedSecretsExport) (s : Sys) :
      Step s (importEncryptedSecrets d s).2

/-- The states the system can actually be in: a fresh page over any store a
prior session of this code could have left (salt records raw), followed by
any sequence of operations. -/
inductive Reachable : Sys → Prop
  | base (db : Store) (rng now : Nat) (hdb : SaltRaw db) :
      Reachable (freshSys db rng now)
  | step {s s' : Sys} : Reachable s → Step s s' → Reachable s'

theorem inv_base (db : Store) (rng now : Nat) (hdb : SaltRaw db) :
    Inv (freshSys db rng now) := by
  refine ⟨⟨fun h => Bool.noConfusion h, fun h => Bool.noConfusion h⟩,
    fun _ => rfl, fun h => Bool.noConfusion h,
    fun h => Bool.noConfusion h, hdb⟩

theorem inv_initStore (s : Sys) (h : Inv s) : Inv (initSecretsStore s) := by
  obtain ⟨hA, hB, hC, hD, hE⟩ := h
  exact ⟨hA, hB, fun hh => getSalt_isSome_of_has s.db hE hh, hD, hE⟩

theorem inv_lock (s : Sys) (h : Inv s) : Inv (lockSecrets s) := by
  obtain ⟨_, _, hC, _, hE⟩ := h
  exact ⟨⟨fun hx => Bool.noConfusion hx, fun hx => Bool.noConfusion hx⟩,
    fun _ => rfl, hC, fun hx => Bool.noConfusion hx, hE⟩

theorem inv_unlock (pw : String) (s : Sys) (h : Inv s) :
    Inv (unlockSecrets pw s).2 := by
  obtain ⟨hA, hB, hC, hD, hE⟩ := h
  by_cases hs : s.state.hasSecrets = true
  · by_cases hv : verifyPassword pw s.db = true
    · unfold unlockSecrets
      rw [if_neg (fun hc => hc hs), if_neg (fun hc => hc hv)]
      refine ⟨⟨fun _ => rfl, fun _ => ?_⟩, fun hx => Bool.noConfusion hx,
        fun _ => hC hs, fun _ => hC hs, hE⟩
      exact getMasterKey_isSome pw s.db (hC hs)
    · unfold unlockSecrets
      rw [if_neg (fun hc => hc hs), if_pos hv]
      exact ⟨hA, hB, hC, hD, hE⟩
  · unfold unlockSecrets
    rw [if_pos hs]
    refine ⟨⟨fun _ => rfl, fun _ => ?_⟩, fun hx => Bool.noConfusion hx,
      fun hh => absurd hh hs, fun _ => initSalt_salt_isSome s.db s.rng,
      saltRaw_initSalt s.db s.rng hE⟩
    exact getMasterKey_isSome pw _ (initSalt_salt_isSome s.db s.rng)

theorem inv_getApp (a : String) (s : Sys) (h : Inv s) :
    Inv (getAppSecrets a s).2 := by
  obtain ⟨hA, hB, hC, hD, hE⟩ := h
  obtain ⟨f1, _, f3, f4, _, _, _⟩ := getAppSecrets_frame a s
  refine ⟨?_, ?_, ?_, ?_, ?_⟩
  · rw [f4, f3]
    exact hA
  · intro hl
    rw [f3] at hl
    have hres : getAppSecrets a s = (none, s) := by
      unfold getAppSecrets
      rw [if_pos hl]
    rw [hres]
    exact hB hl
  · rw [f3, f1]
    exact hC
  · rw [f3, f1]
    exact hD
  · rw [f1]
    exact hE

theorem inv_setApp (a : String) (u : AppSecretsPatch) (s : Sys) (h : Inv s) :
    Inv (resultState (setAppSecrets a u s) s) := by
  obtain ⟨hA, hB, hC, hD, hE⟩ := h
  cases hmk : s.vault.masterKey with
  | none =>
    have herr : setAppSecrets a u s =
        .error (.lockedError "Cannot save secrets while locked") := by
      unfold setAppSecrets
      rw [hmk]
    rw [herr, resultState_error]
    exact ⟨hA, hB, hC, hD, hE⟩
  | some mk =>
    have hunlocked : s.state.isLocked = false := hA.mp (by rw [hmk]; rfl)
    obtain ⟨f1, _, f3, f4, _, _, _⟩ := getAppSecrets_frame a s
    have hres : resultState (setAppSecrets a u s) s =
        { db := setAppEncrypted a
            (.secretbox (deriveDEK mk a) (getAppSecrets a s).2.rng
              (((getAppSecrets a s).1.getD createEmptyAppSecrets).merge u))
            (getAppSecrets a s).2.rng (getAppSecrets a s).2.db,
          rng := (getAppSecrets a s).2.rng + 1,
          vault := {
            password := (getAppSecrets a s).2.vault.password,
            masterKey := (getAppSecrets a s).2.vault.masterKey,
            secretsCache := cacheUpsert
              (getAppSecrets a s).2.vault.secretsCache a
              (((getAppSecrets a s).1.getD createEmptyAppSecrets).merge u) },
          state := {
            isLocked := (getAppSecrets a s).2.state.isLocked,
            hasSecrets := true,
            masterPasswordSet :=
              (getAppSecrets a s).2.state.masterPasswordSet,
            isInitialized := (getAppSecrets a s).2.state.isInitialized },
          autoLockTimer := (getAppSecrets a s).2.autoLockTimer,
          now := (getAppSecrets a s).2.now } := by
      unfold setAppSecrets resultState
      rw [hmk]
      rfl
    rw [hres]
    refine ⟨?_, ?_, ?_, ?_, ?_⟩
    · show (getAppSecrets a s).2.vault.masterKey.isSome = true ↔
        (getAppSecrets a s).2.state.isLocked = false
      rw [f4, f3]
      exact hA
    · intro hl
      have hl' : (getAppSecrets a s).2.state.isLocked = true := hl
      rw [f3, hunlocked] at hl'
      cases hl'
    · intro _
      show (getSalt (setAppEncrypted a _ _ (getAppSecrets a s).2.db)).isSome
        = true
      rw [getSalt_setApp, f1]
      exact hD hunlocked
    · intro _
      show (getSalt (setAppEncrypted a _ _ (getAppSecrets a s).2.db)).isSome
        = true
      rw [getSalt_setApp, f1]
      exact hD hunlocked
    · show SaltRaw (setAppEncrypted a _ _ (getAppSecrets a s).2.db)
      refine saltRaw_setApp _ _ _ _ ?_
      rw [f1]
      exact hE

theorem inv_removeApp (a : String) (s : Sys) (h : Inv s) :
    Inv (resultState (removeAppSecrets a s) s) := by
  obtain ⟨hA, hB, hC, hD, hE⟩ := h
  cases hmk : s.vault.masterKey with
  | none =>
    have herr : removeAppSecrets a s =
        .error (.lockedError "Cannot remove secrets while locked") := by
      unfold removeAppSecrets
      rw [hmk]
    rw [herr, resultState_error]
    exact ⟨hA, hB, hC, hD, hE⟩
  | some mk =>
    have hunlocked : s.state.isLocked = false := hA.mp (by rw [hmk]; rfl)
    have hok : removeAppSecrets a s = .ok
        { s with
          db := removeAppSecretsFromStorage a s.db,
          vault := { s.vault with
            secretsCache := cacheRemove s.vault.secretsCache a },
          state := { s.state with
            hasSecrets := hasStoredSecrets
              (removeAppSecretsFromStorage a s.db) } } := by
      unfold removeAppSecrets
      rw [hmk]
    rw [hok, resultState_ok]
    have hsr : SaltRaw (removeAppSecretsFromStorage a s.db) :=
      saltRaw_erase s.db _ hE
    refine ⟨?_, ?_, ?_, ?_, hsr⟩
    · exact hA
    · intro hl
      have hl' : s.state.isLocked = true := hl
      rw [hunlocked] at hl'
      cases hl'
    · intro hh
      exact getSalt_isSome_of_has _ hsr hh
    · intro _
      show (getSalt (removeAppSecretsFromStorage a s.db)).isSome = true
      rw [show removeAppSecretsFromStorage a s.db
          = deleteAppEncrypted a s.db from rfl, getSalt_deleteApp]
      exact hD hunlocked

theorem inv_changePw (pw : String) (s : Sys) (h : Inv s) :
    Inv (resultState (changeMasterPassword pw s) s) := by
  obtain ⟨hA, hB, hC, hD, hE⟩ := h
  cases hmk : s.vault.masterKey with
  | none =>
    have herr : changeMasterPassword pw s =
        .error (.lockedError "Cannot change password while locked") := by
      unfold changeMasterPassword
      rw [hmk]
    rw [herr, resultState_error]
    exact ⟨hA, hB, hC, hD, hE⟩
  | some mk =>
    have hunlocked : s.state.isLocked = false := hA.mp (by rw [hmk]; rfl)
    obtain ⟨s', hcm, hdb', hmk', _, hstate'⟩ :=
      changeMasterPassword_ok' pw s mk hmk
    rw [hcm, resultState_ok]
    obtain ⟨g1, g2, g3, _, _⟩ :=
      collectFold_frame (getAllAppIds s.db) [] s
    have hsome : (getSalt s'.db).isSome = true := by
      rw [hdb']
      exact reencrypt_salt_isSome _ _ _ _
    refine ⟨?_, ?_, fun _ => hsome, fun _ => hsome, ?_⟩
    · rw [hmk', hstate', g3, hunlocked]
      constructor
      · intro _
        rfl
      · intro _
        exact getMasterKey_isSome pw s'.db hsome
    · intro hl
      rw [hstate', g3, hunlocked] at hl
      cases hl
    · rw [hdb']
      refine saltRaw_reencrypt _ _ _ _ ?_
      rw [g1]
      exact hE

theorem inv_reset (s : Sys) (_h : Inv s) : Inv (resetAllSecrets s) := by
  refine ⟨⟨fun hx => Bool.noConfusion hx, fun hx => Bool.noConfusion hx⟩,
    fun _ => rfl, fun hx => Bool.noConfusion hx,
    fun hx => Bool.noConfusion hx, ?_⟩
  intro e hm
  have hm' : (DBKey.salt, e) ∈ ([] : Store) := hm
  cases hm'

theorem inv_activity (s : Sys) (h : Inv s) : Inv (resetAutoLockTimer s) := by
  unfold resetAutoLockTimer
  by_cases hl : s.state.isLocked = true
  · rw [if_neg (fun hc => hc hl)]
    exact h
  · rw [if_pos hl]
    exact h

theorem inv_tick (dt : Nat) (s : Sys) (h : Inv s) :
    Inv (advanceTime dt s).2 := by
  have h₁ : Inv { s with now := s.now + dt } := h
  unfold advanceTime
  cases ht : s.autoLockTimer with
  | none =>
    simp only [ht]
    exact h₁
  | some t =>
    simp only [ht]
    by_cases hexp : t ≤ s.now + dt
    · rw [if_pos hexp]
      exact inv_lock _ h₁
    · rw [if_neg hexp]
      exact h₁

theorem inv_import (d : EncryptedSecretsExport) (s : Sys) (h : Inv s) :
    Inv (importEncryptedSecrets d s).2 := by
  obtain ⟨hA, hB, hC, hD, hE⟩ := h
  unfold importEncryptedSecrets importEncryptedSecretsDB
  by_cases hv : d.version ≠ 3
  · rw [if_pos hv]
    exact ⟨hA, hB, hC, hD, hE⟩
  · rw [if_neg hv]
    cases hsalt : d.salt with
    | none => exact ⟨hA, hB, hC, hD, hE⟩
    | some b =>
      have hsr : SaltRaw (d.apps.foldl
          (fun db entry => setAppEncrypted entry.1 entry.2.2 entry.2.1 db)
          (setSalt b clearAll)) := by
        refine saltRaw_importFold _ _ (saltRaw_setSalt _ _ ?_)
        intro _e hm
        cases hm
      have hsome : (getSalt (d.apps.foldl
          (fun db entry => setAppEncrypted entry.1 entry.2.2 entry.2.1 db)
          (setSalt b clearAll))).isSome = true := by
        unfold getSalt
        rw [importFold_get_salt, get_setSalt_self]
        rfl
      exact ⟨hA, hB, fun _ => hsome, fun _ => hsome, hsr⟩

theorem inv_step {s s' : Sys} (h : Inv s) (hs : Step s s') : Inv s' := by
  cases hs with
  | init => exact inv_initStore _ h
  | unlock pw _ => exact inv_unlock pw _ h
  | lock => exact inv_lock _ h
  | getSecrets a _ => exact inv_getApp a _ h
  | getSecret a f _ => exact inv_getApp a _ h
  | setSecrets a u _ => exact inv_setApp a u _ h
  | setSecret a f v _ =>
    cases f with
    | client_secret => exact inv_setApp a { client_secret := some v } _ h
  | removeSecrets a _ => exact inv_removeApp a _ h
  | changePw pw _ => exact inv_changePw pw _ h
  | reset => exact inv_reset _ h
  | activity => exact inv_activity _ h
  | tick dt _ => exact inv_tick dt _ h
  | importData d _ => exact inv_import d _ h

/-- **C7.** In every reachable state — initial, and preserved by every
operation (initialize, unlock, lock, getSecret, setSecret, removeSecret,
changeMasterPassword, resetAll, plus the activity signal, the timer tick
and import) — the in-memory master key is non-null iff the vault's
`isLocked` flag is false, and the plaintext secrets cache is empty whenever
the vault is locked. -/
theorem c7_vault_state_invariant (s : Sys) (h : Reachable s) :
    (s.vault.masterKey ≠ none ↔ s.state.isLocked = false) ∧
    (s.state.isLocked = true → s.vault.secretsCache = []) := by
  have hinv : Inv s := by
    induction h with
    | base db rng now hdb => exact inv_base db rng now hdb
    | step _ hstep ih => exact inv_step ih hstep
  refine ⟨?_, hinv.2.1⟩
  rw [Option.ne_none_iff_isSome]
  exact hinv.1

/-- Witness for C7 at a concrete reachable state: a fresh page, unlocked
and with one secret stored. -/
theorem c7_vault_state_invariant_witness :
    (((resultState (setAppSecrets "app1" { client_secret := some "abc" }
        (unlockSecrets "pw" (initSecretsStore (freshSys [] 0 0))).2)
        (unlockSecrets "pw" (initSecretsStore (freshSys [] 0 0))).2)
      ).vault.masterKey ≠ none ↔
     ((resultState (setAppSecrets "app1" { client_secret := some "abc" }
        (unlockSecrets "pw" (initSecretsStore (freshSys [] 0 0))).2)
        (unlockSecrets "pw" (initSecretsStore (freshSys [] 0 0))).2)
      ).state.isLocked = false) ∧
    (((resultState (setAppSecrets "app1" { client_secret := some "abc" }
        (unlockSecrets "pw" (initSecretsStore (freshSys [] 0 0))).2)
        (unlockSecrets "pw" (initSecretsStore (freshSys [] 0 0))).2)
      ).state.isLocked = true →
     ((resultState (setAppSecrets "app1" { client_secret := some "abc" }
        (unlockSecrets "pw" (initSecretsStore (freshSys [] 0 0))).2)
        (unlockSecrets "pw" (initSecretsStore (freshSys [] 0 0))).2)
      ).vault.secretsCache = []) :=
  c7_vault_state_invariant _
    (Reachable.step
      (Reachable.step
        (Reachable.step
          (Reachable.base [] 0 0 (fun _e hm => absurd hm (List.not_mem_nil _)))
          (Step.init _))
        (Step.unlock "pw" _))
      (Step.setSecrets "app1" { client_secret := some "abc" } _))

end SecretsVault
